import Mathlib

/-!
# BusTub LRU-K replacer: a shallow embedding of `src/buffer/lru_k_replacer.cpp`

The C++ class keeps a hash map from frame ids to history nodes and a running
count of evictable nodes.  Here the map is an association list (its order is
the unspecified iteration order of the hash map), `size_t` values are natural
numbers with explicit arithmetic modulo `2 ^ 64`, the clock reading taken by
`GetCurrentMicroseconds` (the signed microsecond count of the system clock cast
to `size_t`) is an argument of the operation that reads it, and a thrown
exception is an `Except.error` returned next to the state in which the throw
leaves the object.

Functions assume, but do not require, well-formed inputs; separate theorems
show that every operation keeps a well-formed state well-formed.
-/

namespace bustub

/-! ## Machine integers -/

/-- Number of values of a 64-bit `size_t`, that is `2 ^ 64`. -/
def SIZE_MOD : Nat := 18446744073709551616

/-- Subtraction of two `size_t` values, wrapping modulo `2 ^ 64`. -/
def size_t_sub (a b : Nat) : Nat := (a + SIZE_MOD - b) % SIZE_MOD

/-- Pre-increment `++x` of a `size_t`, wrapping modulo `2 ^ 64`. -/
def size_t_inc (a : Nat) : Nat := (a + 1) % SIZE_MOD

/-- Pre-decrement `--x` of a `size_t`, wrapping modulo `2 ^ 64`. -/
def size_t_dec (a : Nat) : Nat := (a + SIZE_MOD - 1) % SIZE_MOD

/-- Modelled from the spec: the sentinel `INF` is declared in the header
`buffer/lru_k_replacer.h`, which is not among the sources.  The spec calls it a
sentinel "infinite" value kept as a magic numeric constant of the timestamp
type; it is taken to be the largest `size_t`, `2 ^ 64 - 1`. -/
def INF : Nat := 18446744073709551615

/-- Frame ids are `frame_id_t`, a 32-bit signed integer. -/
def isFrameId (i : Int) : Prop := -2147483648 ≤ i ∧ i < 2147483648

instance (i : Int) : Decidable (isFrameId i) := by
  unfold isFrameId; infer_instance

/-! ## History node -/

/-- Modelled from the spec: the members of `LRUKNode` are declared in the absent
header.  `history_` is the window of access times, least recent in front;
`k_` and `fid_` are the constructor arguments; `is_evictable_` is the flag. -/
structure LRUKNode where
  history_ : List Nat
  k_ : Nat
  fid_ : Int
  is_evictable_ : Bool
deriving DecidableEq

namespace LRUKNode

/-- Modelled from the spec: the constructor `LRUKNode(k, frame_id)` of the absent
header; a node starts with an empty history and is not evictable. -/
def new (k : Nat) (fid : Int) : LRUKNode :=
  { history_ := [], k_ := k, fid_ := fid, is_evictable_ := false }

/-- Modelled from the spec: plain flag accessor of the absent header. -/
def IsEvictable (n : LRUKNode) : Bool := n.is_evictable_

/-- Modelled from the spec: plain flag accessor of the absent header. -/
def SetEvictable (n : LRUKNode) (set_evictable : Bool) : LRUKNode :=
  { n with is_evictable_ := set_evictable }

/-- Modelled from the spec: `GetLastAccessTime` of the absent header returns the
most recent entry, the last element of `history_` (`0` stands for the undefined
read on an empty history, which no stored node has). -/
def GetLastAccessTime (n : LRUKNode) : Nat := n.history_.getLastD 0

/-- `LRUKNode::RecordAccessTime`: drop the front when the window already holds
`k_` entries, then push the timestamp at the back.  (`pop_front` on an empty
list, which needs `k_ = 0`, is undefined in C++; `tail` leaves it empty.) -/
def RecordAccessTime (n : LRUKNode) (timestamp : Nat) : LRUKNode :=
  let popped := if n.history_.length ≥ n.k_ then n.history_.tail else n.history_
  { n with history_ := popped ++ [timestamp] }

/-- `LRUKNode::GetOldestAccessTime`: the front of a full window, `INF` otherwise
(`0` stands for the undefined `front()` of an empty list when `k_ = 0`). -/
def GetOldestAccessTime (n : LRUKNode) : Nat :=
  if n.history_.length ≥ n.k_ then n.history_.headD 0 else INF

end LRUKNode

/-! ## Node store -/

/-- `node_store_.find(frame_id)`: the node stored under the key, if any. -/
def find : List (Int × LRUKNode) → Int → Option LRUKNode
  | [], _ => none
  | e :: rest, frame_id => if e.1 = frame_id then some e.2 else find rest frame_id

/-- `node_store_.emplace(frame_id, node)`, called only for an absent key. -/
def emplace (store : List (Int × LRUKNode)) (frame_id : Int) (node : LRUKNode) :
    List (Int × LRUKNode) :=
  store ++ [(frame_id, node)]

/-- `node_store_.erase(it)` for the iterator found under `frame_id`. -/
def erase (store : List (Int × LRUKNode)) (frame_id : Int) : List (Int × LRUKNode) :=
  store.filter (fun e => decide (e.1 ≠ frame_id))

/-- In-place update through `it->second` of the node stored under `frame_id`. -/
def modify (store : List (Int × LRUKNode)) (frame_id : Int) (f : LRUKNode → LRUKNode) :
    List (Int × LRUKNode) :=
  store.map (fun e => if e.1 = frame_id then (e.1, f e.2) else e)

/-- Number of stored nodes whose evictable flag is set. -/
def countEvictable (store : List (Int × LRUKNode)) : Nat :=
  store.countP (fun e => e.2.is_evictable_)

/-! ## Replacer -/

/-- The mutable members of `LRUKReplacer` (the latch is not modelled). -/
structure LRUKReplacer where
  node_store_ : List (Int × LRUKNode)
  curr_size_ : Nat
  replacer_size_ : Nat
  k_ : Nat
deriving DecidableEq

namespace LRUKReplacer

/-- `LRUKReplacer::LRUKReplacer(num_frames, k)`. -/
def new (num_frames k : Nat) : LRUKReplacer :=
  { node_store_ := [], curr_size_ := 0, replacer_size_ := num_frames, k_ := k }

/-- `LRUKReplacer::Size`. -/
def Size (s : LRUKReplacer) : Nat := s.curr_size_

/-- `LRUKReplacer::RemoveUnLock`: erase an evictable node and decrement the
count; throw on a stored node that is not evictable; do nothing on an unknown
frame id. -/
def RemoveUnLock (s : LRUKReplacer) (frame_id : Int) : LRUKReplacer × Except String Unit :=
  match find s.node_store_ frame_id with
  | some node =>
    if node.IsEvictable then
      ({ s with node_store_ := erase s.node_store_ frame_id,
                curr_size_ := size_t_dec s.curr_size_ }, .ok ())
    else
      (s, .error "Logical error: Remove a non-evictable frame")
  | none => (s, .ok ())

/-- `LRUKReplacer::Remove`. -/
def Remove (s : LRUKReplacer) (frame_id : Int) : LRUKReplacer × Except String Unit :=
  RemoveUnLock s frame_id

/-- Backward k-distance as the scan of `Evict` computes it for a node that is
compared with the current candidate. -/
def kDistance (current_time : Nat) (node : LRUKNode) : Nat :=
  let access_time := node.GetOldestAccessTime
  if access_time = INF then INF else size_t_sub current_time access_time

/-- One iteration of the loop of `Evict`; the accumulator is `candidate_it`
(as the entry it points to, `none` for `end()`) and `candidate_k_distance`. -/
def evictStep (current_time : Nat) (acc : Option (Int × LRUKNode) × Nat)
    (it : Int × LRUKNode) : Option (Int × LRUKNode) × Nat :=
  let node := it.2
  if !node.IsEvictable then acc
  else
    match acc.1 with
    | some candidate =>
      let k_distance := kDistance current_time node
      if (acc.2 ≠ INF ∧ k_distance > acc.2) ∨
          (k_distance = acc.2 ∧ node.GetLastAccessTime < candidate.2.GetLastAccessTime) then
        (some it, k_distance)
      else acc
    | none =>
      let access_time := node.GetOldestAccessTime
      (some it, if access_time ≠ INF then size_t_sub current_time access_time else acc.2)

/-- The loop of `Evict` over the node store in its iteration order. -/
def evictScan (current_time : Nat) (store : List (Int × LRUKNode)) :
    Option (Int × LRUKNode) × Nat :=
  store.foldl (evictStep current_time) (none, INF)

/-- `LRUKReplacer::Evict`, with the clock reading as an argument. -/
def Evict (s : LRUKReplacer) (current_time : Nat) :
    LRUKReplacer × Except String (Option Int) :=
  if s.curr_size_ = 0 then (s, .ok none)
  else
    match (evictScan current_time s.node_store_).1 with
    | some candidate =>
      match RemoveUnLock s candidate.1 with
      | (s', .ok _) => (s', .ok (some candidate.1))
      | (s', .error e) => (s', .error e)
    | none => (s, .ok none)

/-- `LRUKReplacer::RecordAccess`, with the clock reading as an argument. -/
def RecordAccess (s : LRUKReplacer) (frame_id : Int) (current_time : Nat) : LRUKReplacer :=
  let store :=
    match find s.node_store_ frame_id with
    | none => emplace s.node_store_ frame_id (LRUKNode.new s.k_ frame_id)
    | some _ => s.node_store_
  { s with node_store_ := modify store frame_id (fun n => n.RecordAccessTime current_time) }

/-- `LRUKReplacer::SetEvictable`. -/
def SetEvictable (s : LRUKReplacer) (frame_id : Int) (set_evictable : Bool) : LRUKReplacer :=
  match find s.node_store_ frame_id with
  | some node =>
    if node.IsEvictable && !set_evictable then
      { s with curr_size_ := size_t_dec s.curr_size_,
               node_store_ := modify s.node_store_ frame_id (fun n => n.SetEvictable set_evictable) }
    else if !node.IsEvictable && set_evictable then
      { s with curr_size_ := size_t_inc s.curr_size_,
               node_store_ := modify s.node_store_ frame_id (fun n => n.SetEvictable set_evictable) }
    else s
  | none => s

end LRUKReplacer

/-! ## Call sequences -/

/-- A call of one of the four mutating entry points, with the clock reading
where the entry point takes one. -/
inductive Call where
  | recordAccess (frame_id : Int) (current_time : Nat)
  | setEvictable (frame_id : Int) (set_evictable : Bool)
  | evict (current_time : Nat)
  | remove (frame_id : Int)
deriving DecidableEq

/-- The frame id passed to a call is a `frame_id_t` value. -/
def Call.typed : Call → Prop
  | .recordAccess frame_id _ => isFrameId frame_id
  | .setEvictable frame_id _ => isFrameId frame_id
  | .evict _ => True
  | .remove frame_id => isFrameId frame_id

/-- State after one call; a call that throws leaves the state the throw left. -/
def step (s : LRUKReplacer) : Call → LRUKReplacer
  | .recordAccess frame_id current_time => s.RecordAccess frame_id current_time
  | .setEvictable frame_id set_evictable => s.SetEvictable frame_id set_evictable
  | .evict current_time => (s.Evict current_time).1
  | .remove frame_id => (s.Remove frame_id).1

/-- State after a sequence of calls. -/
def run (s : LRUKReplacer) (calls : List Call) : LRUKReplacer :=
  calls.foldl step s

/-! ## State predicates -/

/-- The keys of the node store are pairwise distinct, as in any hash map. -/
def UniqueKeys (store : List (Int × LRUKNode)) : Prop :=
  (store.map Prod.fst).Nodup

/-- Representation invariant: keys are distinct `frame_id_t` values and every
node carries the window size of its replacer. -/
def WellFormed (s : LRUKReplacer) : Prop :=
  UniqueKeys s.node_store_ ∧ ∀ e ∈ s.node_store_, isFrameId e.1 ∧ e.2.k_ = s.k_

/-- Accounting invariant: `curr_size_` is the number of evictable nodes. -/
def Accounting (s : LRUKReplacer) : Prop :=
  s.curr_size_ = countEvictable s.node_store_

/-- No stored timestamp is later than `now`. -/
def TimesUpTo (now : Nat) (store : List (Int × LRUKNode)) : Prop :=
  ∀ e ∈ store, ∀ t ∈ e.2.history_, t ≤ now

/-- Backward k-distance in the words of the spec: `INF` when the history has
fewer than `k` entries, otherwise `now` minus the oldest timestamp in the
window. -/
def backwardKDistance (k now : Nat) (n : LRUKNode) : Nat :=
  if n.history_.length < k then INF else now - n.history_.headD 0

/-- The order the scan of `Evict` selects by: `c` has a larger scan distance
than `e`, or the same one and a last access that is not later. -/
def Preferred (now : Nat) (e c : LRUKNode) : Prop :=
  LRUKReplacer.kDistance now e < LRUKReplacer.kDistance now c ∨
    (LRUKReplacer.kDistance now e = LRUKReplacer.kDistance now c ∧
      c.GetLastAccessTime ≤ e.GetLastAccessTime)

/-- The state invariant kept by every entry point: the representation
invariant together with the accounting invariant. -/
def Inv (s : LRUKReplacer) : Prop := WellFormed s ∧ Accounting s

/-! ## HyperLogLog (`src/primer/hyperloglog.cpp`)

A `std::bitset<BITSET_CAPACITY>` is the natural number below `2 ^ 64` with the
same bits; the value of `CalculateHash(val)`, a function of the absent header,
is an argument of `AddElem`. -/

/-- Modelled from the spec: `BITSET_CAPACITY` is a constant of the header
`primer/hyperloglog.h`, which is not among the sources, and the spec leaves the
module out; it is the width of the 64-bit hash `hash_t`. -/
def BITSET_CAPACITY : Nat := 64

/-- Modelled from the spec: the members of `HyperLogLog` are declared in the
absent header; `register_` is the vector of registers, of signed 64-bit
values, and `b_` the `int16_t` number of index bits. -/
structure HyperLogLog where
  cardinality_ : Nat
  b_ : Int
  register_size_ : Nat
  register_ : List Int
deriving DecidableEq

/-- `std::bitset::test(pos)`: the bit at `pos`, `std::out_of_range` when `pos`
is not below the size of the bitset. -/
def bitsetTest (bset pos : Nat) : Except String Bool :=
  if pos < BITSET_CAPACITY then .ok (bset.testBit pos) else .error "bitset::test"

/-- `bset >> pos` on a `std::bitset`, whose shift count is a `size_t`: a count
that is negative as an `int` converts to one beyond the size and clears the
bitset. -/
def bitsetShiftRight (bset : Nat) (pos : Int) : Nat :=
  if pos < 0 then 0 else bset >>> pos.toNat

/-- The loop of `PositionOfLeftmostOne`: the first argument is `i + 1` for the
loop variable `i` (0 once `i` is negative), the second the counter `p`. -/
def positionLoop (bset : Nat) : Nat → Nat → Except String Nat
  | 0, p => .ok p
  | i + 1, p =>
    match bitsetTest bset i with
    | .ok true => .ok (p + 1)
    | .ok false => positionLoop bset i (p + 1)
    | .error e => .error e

namespace HyperLogLog

/-- `HyperLogLog::HyperLogLog(n_bits)`: `2 ^ n_bits` zeroed registers when
`n_bits` is not negative (`std::pow(2, n_bits)` is exact and within `size_t`
for `n_bits < 64`); no register otherwise. -/
def new (n_bits : Int) : HyperLogLog :=
  if n_bits ≥ 0 then
    { cardinality_ := 0, b_ := n_bits, register_size_ := 2 ^ n_bits.toNat,
      register_ := List.replicate (2 ^ n_bits.toNat) 0 }
  else
    { cardinality_ := 0, b_ := n_bits, register_size_ := 0, register_ := [] }

/-- `HyperLogLog::ComputeBinary`: the bitset of a 64-bit hash. -/
def ComputeBinary (hash : Nat) : Nat := hash % 2 ^ BITSET_CAPACITY

/-- `HyperLogLog::PositionOfLeftmostOne`: the loop starts at
`i = bset.size() - 1 - b_` and runs while `i >= 0`. -/
def PositionOfLeftmostOne (h : HyperLogLog) (bset : Nat) : Except String Nat :=
  positionLoop bset ((BITSET_CAPACITY : Int) - 1 - h.b_ + 1).toNat 0

/-- The register index computed by `AddElem`:
`(binary >> (BITSET_CAPACITY - b_)).to_ulong()`. -/
def registerIndex (h : HyperLogLog) (binary : Nat) : Nat :=
  bitsetShiftRight binary ((BITSET_CAPACITY : Int) - h.b_)

/-- `HyperLogLog::AddElem`, with the hash of the value as an argument.  The
unchecked `register_[index]` reads 0 and writes nothing out of bounds, where
the C++ access is undefined. -/
def AddElem (h : HyperLogLog) (hash : Nat) : HyperLogLog × Except String Unit :=
  if h.b_ < 0 then (h, .ok ())
  else
    let binary := ComputeBinary hash
    let index := h.registerIndex binary
    match h.PositionOfLeftmostOne binary with
    | .ok p =>
      ({ h with register_ := h.register_.set index (max (h.register_.getD index 0) (p : Int)) },
        .ok ())
    | .error e => (h, .error e)

/-- State after adding the elements with the given hashes, one after the
other. -/
def addAll (h : HyperLogLog) (hashes : List Nat) : HyperLogLog :=
  hashes.foldl (fun acc hash => (acc.AddElem hash).1) h

end HyperLogLog

/-! ## Concrete states -/

/-- Two evictable frames of a replacer with `k = 1`; frame 1 was accessed when
the clock read `INF`, frame 2 one microsecond earlier. -/
def stateAtSentinel : LRUKReplacer :=
  { node_store_ :=
      [(2, { history_ := [18446744073709551614], k_ := 1, fid_ := 2, is_evictable_ := true }),
       (1, { history_ := [18446744073709551615], k_ := 1, fid_ := 1, is_evictable_ := true })],
    curr_size_ := 2, replacer_size_ := 5, k_ := 1 }

/-- Scenario A of the spec: `k = 2`, frame 1 accessed at 1 and 2, frame 2 at 1,
both evictable. -/
def scenarioA : LRUKReplacer :=
  { node_store_ :=
      [(1, { history_ := [1, 2], k_ := 2, fid_ := 1, is_evictable_ := true }),
       (2, { history_ := [1], k_ := 2, fid_ := 2, is_evictable_ := true })],
    curr_size_ := 2, replacer_size_ := 5, k_ := 2 }

/-- Frame 1 of a replacer with `k = 2` was accessed at times 0 and 1, frame 2
once at time 5; both are evictable. -/
def stateFromEpoch : LRUKReplacer :=
  { node_store_ :=
      [(1, { history_ := [0, 1], k_ := 2, fid_ := 1, is_evictable_ := true }),
       (2, { history_ := [5], k_ := 2, fid_ := 2, is_evictable_ := true })],
    curr_size_ := 2, replacer_size_ := 5, k_ := 2 }

/-- Three evictable frames of a replacer with `k = 2`: frame 1 was accessed
twice when the clock read `INF`, frames 2 and 3 shortly before. -/
def stateTiedAtSentinel : LRUKReplacer :=
  { node_store_ :=
      [(2, { history_ := [18446744073709551612, 18446744073709551613], k_ := 2, fid_ := 2,
             is_evictable_ := true }),
       (3, { history_ := [18446744073709551612, 18446744073709551614], k_ := 2, fid_ := 3,
             is_evictable_ := true }),
       (1, { history_ := [18446744073709551615, 18446744073709551615], k_ := 2, fid_ := 1,
             is_evictable_ := true })],
    curr_size_ := 3, replacer_size_ := 5, k_ := 2 }

/-- Three evictable frames of a replacer with `k = 2`, each accessed once. -/
def stateUnderfull : LRUKReplacer :=
  { node_store_ :=
      [(1, { history_ := [3], k_ := 2, fid_ := 1, is_evictable_ := true }),
       (2, { history_ := [1], k_ := 2, fid_ := 2, is_evictable_ := true }),
       (3, { history_ := [2], k_ := 2, fid_ := 3, is_evictable_ := true })],
    curr_size_ := 3, replacer_size_ := 5, k_ := 2 }

/-- A call sequence on which `Remove` throws (frame 1 is not yet evictable),
`Evict` evicts, and unknown frames are passed to `Remove` and `SetEvictable`. -/
def callsWithThrow : List Call :=
  [.recordAccess 1 1, .remove 1, .setEvictable 1 true, .recordAccess 2 2, .setEvictable 2 true,
   .setEvictable 3 true, .recordAccess 3 3, .evict 4, .remove 7, .setEvictable 2 false,
   .remove 2]

/-- One frame, accessed once and never marked evictable (`k = 2`). -/
def statePinned : LRUKReplacer :=
  { node_store_ := [(1, { history_ := [1], k_ := 2, fid_ := 1, is_evictable_ := false })],
    curr_size_ := 0, replacer_size_ := 5, k_ := 2 }

/-- Results of successive `Evict` calls, one per clock reading. -/
def evictSuccessively (s : LRUKReplacer) : List Nat → List (Except String (Option Int))
  | [] => []
  | t :: ts => (s.Evict t).2 :: evictSuccessively (s.Evict t).1 ts

/-- The calls of scenario B of the spec: frames 1, 2, 3 accessed at times 1, 2,
3, then all three marked evictable. -/
def callsScenarioB : List Call :=
  [.recordAccess 1 1, .recordAccess 2 2, .recordAccess 3 3, .setEvictable 1 true,
   .setEvictable 2 true, .setEvictable 3 true]

/-- A replacer with `k = 1` and capacity 3, as in scenario B of the spec, with
the given node store and evictable count. -/
def scenarioBWith (store : List (Int × LRUKNode)) (size : Nat) : LRUKReplacer :=
  { node_store_ := store, curr_size_ := size, replacer_size_ := 3, k_ := 1 }

/-- The state scenario B of the spec reaches before the first `Evict`. -/
def scenarioB : LRUKReplacer :=
  scenarioBWith
    [(1, { history_ := [1], k_ := 1, fid_ := 1, is_evictable_ := true }),
     (2, { history_ := [2], k_ := 1, fid_ := 2, is_evictable_ := true }),
     (3, { history_ := [3], k_ := 1, fid_ := 3, is_evictable_ := true })] 3

/-- Two evictable frames of a replacer with `k = 3`, both with two accesses:
frame 1 at times 1 and 10, frame 2 at times 2 and 3. -/
def stateOldestVsLast : LRUKReplacer :=
  { node_store_ :=
      [(1, { history_ := [1, 10], k_ := 3, fid_ := 1, is_evictable_ := true }),
       (2, { history_ := [2, 3], k_ := 3, fid_ := 2, is_evictable_ := true })],
    curr_size_ := 2, replacer_size_ := 5, k_ := 3 }

/-- Two evictable frames of a replacer with `k = 2`, all accesses made when the
clock read `INF`: frame 1 twice, frame 2 once. -/
def stateSentinelOrder : LRUKReplacer :=
  { node_store_ :=
      [(1, { history_ := [18446744073709551615, 18446744073709551615], k_ := 2, fid_ := 1,
             is_evictable_ := true }),
       (2, { history_ := [18446744073709551615], k_ := 2, fid_ := 2, is_evictable_ := true })],
    curr_size_ := 2, replacer_size_ := 5, k_ := 2 }

/-- Two evictable frames of a replacer with `k = 2`: frame 1 accessed at times
5 and 7, frame 2 once at time 7. -/
def stateClockStepsBack : LRUKReplacer :=
  { node_store_ :=
      [(1, { history_ := [5, 7], k_ := 2, fid_ := 1, is_evictable_ := true }),
       (2, { history_ := [7], k_ := 2, fid_ := 2, is_evictable_ := true })],
    curr_size_ := 2, replacer_size_ := 5, k_ := 2 }

/-! ## The eviction scan -/

theorem size_t_sub_le_INF (a b : Nat) : size_t_sub a b ≤ INF := by
  have h : size_t_sub a b < SIZE_MOD := Nat.mod_lt _ (by decide)
  unfold SIZE_MOD at h
  unfold INF
  omega

theorem kDistance_le_INF (now : Nat) (n : LRUKNode) : LRUKReplacer.kDistance now n ≤ INF := by
  unfold LRUKReplacer.kDistance
  simp only
  split
  · exact le_refl _
  · exact size_t_sub_le_INF _ _

theorem Preferred_refl (now : Nat) (n : LRUKNode) : Preferred now n n :=
  Or.inr ⟨rfl, le_refl _⟩

theorem evictStep_not_evictable (now : Nat) (acc : Option (Int × LRUKNode) × Nat)
    (it : Int × LRUKNode) (h : it.2.is_evictable_ = false) :
    LRUKReplacer.evictStep now acc it = acc := by
  simp [LRUKReplacer.evictStep, LRUKNode.IsEvictable, h]

theorem evictStep_first (now : Nat) (it : Int × LRUKNode) (h : it.2.is_evictable_ = true) :
    LRUKReplacer.evictStep now (none, INF) it = (some it, LRUKReplacer.kDistance now it.2) := by
  simp only [LRUKReplacer.evictStep, LRUKNode.IsEvictable, h, LRUKReplacer.kDistance]
  by_cases hI : it.2.GetOldestAccessTime = INF <;> simp [hI]

theorem evictStep_next (now : Nat) (c it : Int × LRUKNode) (h : it.2.is_evictable_ = true) :
    (LRUKReplacer.evictStep now (some c, LRUKReplacer.kDistance now c.2) it
        = (some it, LRUKReplacer.kDistance now it.2) ∧ Preferred now c.2 it.2) ∨
    (LRUKReplacer.evictStep now (some c, LRUKReplacer.kDistance now c.2) it
        = (some c, LRUKReplacer.kDistance now c.2) ∧ Preferred now it.2 c.2) := by
  have hx := kDistance_le_INF now it.2
  have hc := kDistance_le_INF now c.2
  simp only [LRUKReplacer.evictStep, LRUKNode.IsEvictable, h, Preferred]
  split_ifs with hcond
  · simp at hcond
  · left
    refine ⟨rfl, ?_⟩
    omega
  · right
    refine ⟨rfl, ?_⟩
    omega

/-- Result of the scan: no candidate exactly when no stored node is evictable,
otherwise an evictable entry that the scan order prefers to every other one. -/
theorem evictScan_spec (now : Nat) (store : List (Int × LRUKNode)) :
    (LRUKReplacer.evictScan now store = (none, INF) ∧
        ∀ e ∈ store, e.2.is_evictable_ = false) ∨
    (∃ c, LRUKReplacer.evictScan now store = (some c, LRUKReplacer.kDistance now c.2) ∧
        c ∈ store ∧ c.2.is_evictable_ = true ∧
        ∀ e ∈ store, e.2.is_evictable_ = true → Preferred now e.2 c.2) := by
  induction store using List.reverseRecOn with
  | nil => left; exact ⟨rfl, by simp⟩
  | append_singleton l x ih =>
    have hfold : LRUKReplacer.evictScan now (l ++ [x])
        = LRUKReplacer.evictStep now (LRUKReplacer.evictScan now l) x := by
      simp [LRUKReplacer.evictScan, List.foldl_append]
    rw [hfold]
    cases hx : x.2.is_evictable_ with
    | false =>
      rw [evictStep_not_evictable now _ x hx]
      rcases ih with ⟨h1, h2⟩ | ⟨c, h1, h2, h3, h4⟩
      · left
        refine ⟨h1, ?_⟩
        intro e he
        rcases List.mem_append.1 he with he | he
        · exact h2 e he
        · rw [List.mem_singleton.1 he]; exact hx
      · right
        refine ⟨c, h1, List.mem_append_left _ h2, h3, ?_⟩
        intro e he hev
        rcases List.mem_append.1 he with he | he
        · exact h4 e he hev
        · rw [List.mem_singleton.1 he] at hev; rw [hx] at hev; cases hev
    | true =>
      right
      rcases ih with ⟨h1, h2⟩ | ⟨c, h1, h2, h3, h4⟩
      · rw [h1, evictStep_first now x hx]
        refine ⟨x, rfl, by simp, hx, ?_⟩
        intro e he hev
        rcases List.mem_append.1 he with he | he
        · rw [h2 e he] at hev; cases hev
        · rw [List.mem_singleton.1 he]; exact Preferred_refl now x.2
      · rw [h1]
        rcases evictStep_next now c x hx with ⟨hs, hp⟩ | ⟨hs, hp⟩
        · rw [hs]
          refine ⟨x, rfl, by simp, hx, ?_⟩
          intro e he hev
          rcases List.mem_append.1 he with he | he
          · have := h4 e he hev
            unfold Preferred at this hp ⊢
            omega
          · rw [List.mem_singleton.1 he]; exact Preferred_refl now x.2
        · rw [hs]
          refine ⟨c, rfl, List.mem_append_left _ h2, h3, ?_⟩
          intro e he hev
          rcases List.mem_append.1 he with he | he
          · exact h4 e he hev
          · rw [List.mem_singleton.1 he]; exact hp

/-! ## Node store lemmas -/

theorem find_some_mem (store : List (Int × LRUKNode)) (i : Int) (n : LRUKNode)
    (h : find store i = some n) : (i, n) ∈ store := by
  induction store with
  | nil => simp [find] at h
  | cons e rest ih =>
    unfold find at h
    split_ifs at h with he
    · cases h
      rw [← he]
      exact List.mem_cons_self _ _
    · exact List.mem_cons_of_mem _ (ih h)

theorem find_none_iff (store : List (Int × LRUKNode)) (i : Int) :
    find store i = none ↔ i ∉ store.map Prod.fst := by
  induction store with
  | nil => simp [find]
  | cons e rest ih =>
    unfold find
    split_ifs with he
    · simp [he]
    · simp only [List.map_cons, List.mem_cons, not_or]
      rw [ih]
      constructor
      · intro h; exact ⟨fun h2 => he h2.symm, h⟩
      · intro h; exact h.2

theorem find_of_mem (store : List (Int × LRUKNode)) (hu : UniqueKeys store)
    (e : Int × LRUKNode) (he : e ∈ store) : find store e.1 = some e.2 := by
  induction store with
  | nil => cases he
  | cons x rest ih =>
    unfold UniqueKeys at hu
    rw [List.map_cons, List.nodup_cons] at hu
    unfold find
    rcases List.mem_cons.1 he with h | h
    · rw [h]; simp
    · have hne : x.1 ≠ e.1 := by
        intro heq
        apply hu.1
        rw [heq]
        exact List.mem_map_of_mem Prod.fst h
      rw [if_neg hne]
      exact ih hu.2 h

/-! ## Evict -/

theorem RemoveUnLock_evictable (s : LRUKReplacer) (i : Int) (n : LRUKNode)
    (hf : find s.node_store_ i = some n) (hev : n.is_evictable_ = true) :
    s.RemoveUnLock i =
      ({ s with node_store_ := erase s.node_store_ i,
                curr_size_ := size_t_dec s.curr_size_ }, .ok ()) := by
  simp [LRUKReplacer.RemoveUnLock, hf, LRUKNode.IsEvictable, hev]

/-- With no evictable node, or a zero count, `Evict` returns none and changes
nothing. -/
theorem Evict_none (s : LRUKReplacer) (now : Nat)
    (h : s.curr_size_ = 0 ∨ ∀ e ∈ s.node_store_, e.2.is_evictable_ = false) :
    s.Evict now = (s, .ok none) := by
  unfold LRUKReplacer.Evict
  by_cases h0 : s.curr_size_ = 0
  · rw [if_pos h0]
  · rw [if_neg h0]
    rcases h with h | h
    · exact absurd h h0
    · rcases evictScan_spec now s.node_store_ with ⟨h1, _⟩ | ⟨c, _, h2, h3, _⟩
      · rw [h1]
      · rw [h c h2] at h3; cases h3

/-- With unique keys, a nonzero count and an evictable node, `Evict` erases the
entry the scan order prefers and returns its frame id. -/
theorem Evict_some (s : LRUKReplacer) (now : Nat) (hu : UniqueKeys s.node_store_)
    (h0 : s.curr_size_ ≠ 0) (hex : ∃ e ∈ s.node_store_, e.2.is_evictable_ = true) :
    ∃ c ∈ s.node_store_, c.2.is_evictable_ = true ∧
      (∀ e ∈ s.node_store_, e.2.is_evictable_ = true → Preferred now e.2 c.2) ∧
      s.Evict now =
        ({ s with node_store_ := erase s.node_store_ c.1,
                  curr_size_ := size_t_dec s.curr_size_ }, .ok (some c.1)) := by
  rcases evictScan_spec now s.node_store_ with ⟨_, h2⟩ | ⟨c, h1, h2, h3, h4⟩
  · obtain ⟨e, he, hev⟩ := hex
    rw [h2 e he] at hev; cases hev
  · refine ⟨c, h2, h3, h4, ?_⟩
    unfold LRUKReplacer.Evict
    rw [if_neg h0, h1]
    simp only
    rw [RemoveUnLock_evictable s c.1 c.2 (find_of_mem _ hu c h2) h3]

/-- Whenever `Evict` returns a frame id, it is the key of an evictable entry
that the scan order prefers to every other evictable entry. -/
theorem Evict_returns (s : LRUKReplacer) (now : Nat) (f : Int)
    (h : (s.Evict now).2 = .ok (some f)) :
    s.curr_size_ ≠ 0 ∧ ∃ c ∈ s.node_store_, c.1 = f ∧ c.2.is_evictable_ = true ∧
      (∀ e ∈ s.node_store_, e.2.is_evictable_ = true → Preferred now e.2 c.2) ∧
      (s.Evict now).1 = (s.RemoveUnLock f).1 := by
  by_cases h0 : s.curr_size_ = 0
  · rw [Evict_none s now (Or.inl h0)] at h; cases h
  · refine ⟨h0, ?_⟩
    rcases evictScan_spec now s.node_store_ with ⟨_, h2⟩ | ⟨c, h1, h2, h3, h4⟩
    · rw [Evict_none s now (Or.inr h2)] at h; cases h
    · have hE : s.Evict now =
          match s.RemoveUnLock c.1 with
          | (s2, .ok _) => (s2, .ok (some c.1))
          | (s2, .error e) => (s2, .error e) := by
        unfold LRUKReplacer.Evict
        rw [if_neg h0, h1]
      rw [hE] at h ⊢
      rcases hr : s.RemoveUnLock c.1 with ⟨s2, r⟩
      rw [hr] at h
      cases r with
      | error e => cases h
      | ok u =>
        simp only at h
        have hf : c.1 = f := by
          injection h with h
          injection h
        refine ⟨c, h2, hf, h3, h4, ?_⟩
        rw [← hf, hr]

/-- The distance computed by the scan is the backward k-distance of the spec as
long as the clock has not reached `INF` and no stored timestamp is later than
the clock. -/
theorem kDistance_eq_backwardKDistance (k now : Nat) (n : LRUKNode) (hk : n.k_ = k)
    (ht : ∀ t ∈ n.history_, t ≤ now) (hnow : now < INF) :
    LRUKReplacer.kDistance now n = backwardKDistance k now n := by
  unfold LRUKReplacer.kDistance LRUKNode.GetOldestAccessTime backwardKDistance
  rw [hk]
  by_cases hlen : n.history_.length < k
  · have h2 : ¬ n.history_.length ≥ k := by omega
    simp [h2, hlen]
  · have h2 : n.history_.length ≥ k := by omega
    have hhead : n.history_.headD 0 ≤ now := by
      cases hh : n.history_ with
      | nil => simp
      | cons a rest =>
        rw [hh] at ht
        simpa using ht a (List.mem_cons_self _ _)
    unfold INF at hnow
    simp only [h2, hlen, if_true, if_false]
    unfold size_t_sub SIZE_MOD INF
    split_ifs with h3
    · omega
    · omega

theorem Accounting_curr_size_ne_zero (s : LRUKReplacer) (hacc : Accounting s)
    (hex : ∃ e ∈ s.node_store_, e.2.is_evictable_ = true) : s.curr_size_ ≠ 0 := by
  obtain ⟨e, he, hev⟩ := hex
  unfold Accounting countEvictable at hacc
  have hpos : 0 < s.node_store_.countP (fun e => e.2.is_evictable_) :=
    List.countP_pos_iff.2 ⟨e, he, hev⟩
  omega

/-- Under the accounting invariant and below the sentinel, the victim is an
evictable frame that maximises the backward k-distance of the spec and, among
the frames of that distance, minimises the last access time. -/
theorem Evict_victim (s : LRUKReplacer) (now : Nat)
    (hwf : WellFormed s) (hacc : Accounting s)
    (hex : ∃ e ∈ s.node_store_, e.2.is_evictable_ = true)
    (htime : TimesUpTo now s.node_store_) (hnow : now < INF) :
    ∃ f n, (s.Evict now).2 = .ok (some f) ∧ find s.node_store_ f = some n ∧
      n.is_evictable_ = true ∧
      (∀ e ∈ s.node_store_, e.2.is_evictable_ = true →
        backwardKDistance s.k_ now e.2 ≤ backwardKDistance s.k_ now n) ∧
      (∀ e ∈ s.node_store_, e.2.is_evictable_ = true →
        backwardKDistance s.k_ now e.2 = backwardKDistance s.k_ now n →
        n.GetLastAccessTime ≤ e.2.GetLastAccessTime) := by
  obtain ⟨c, hc, hcev, hpref, hE⟩ :=
    Evict_some s now hwf.1 (Accounting_curr_size_ne_zero s hacc hex) hex
  have hkd : ∀ e ∈ s.node_store_,
      LRUKReplacer.kDistance now e.2 = backwardKDistance s.k_ now e.2 := fun e he =>
    kDistance_eq_backwardKDistance s.k_ now e.2 (hwf.2 e he).2 (htime e he) hnow
  refine ⟨c.1, c.2, by rw [hE], find_of_mem _ hwf.1 c hc, hcev, ?_, ?_⟩
  · intro e he hev
    have := hpref e he hev
    unfold Preferred at this
    rw [hkd e he, hkd c hc] at this
    omega
  · intro e he hev heq
    have := hpref e he hev
    unfold Preferred at this
    rw [hkd e he, hkd c hc] at this
    omega

/-! ## C1: the victim has the largest backward k-distance -/

/-- C1 (amended): for every well-formed replacer state whose `Size()` equals the
number of evictable nodes and that has an evictable node, and for every current
time smaller than `INF` and not smaller than any stored timestamp, `Evict`
returns an evictable frame whose backward k-distance (`INF` when its history
has fewer than `k` entries, otherwise now minus the oldest timestamp of its
window) is the largest among all evictable frames. -/
theorem Evict_largest_backward_k_distance (s : LRUKReplacer) (now : Nat)
    (hwf : WellFormed s) (hacc : Accounting s)
    (hex : ∃ e ∈ s.node_store_, e.2.is_evictable_ = true)
    (htime : TimesUpTo now s.node_store_) (hnow : now < INF) :
    ∃ f n, (s.Evict now).2 = .ok (some f) ∧ find s.node_store_ f = some n ∧
      n.is_evictable_ = true ∧
      ∀ e ∈ s.node_store_, e.2.is_evictable_ = true →
        backwardKDistance s.k_ now e.2 ≤ backwardKDistance s.k_ now n := by
  obtain ⟨f, n, h1, h2, h3, h4, _⟩ := Evict_victim s now hwf hacc hex htime hnow
  exact ⟨f, n, h1, h2, h3, h4⟩

/-- Witness of C1 on scenario A of the spec at time 10: the hypotheses hold and
the conclusion is obtained from the theorem. -/
theorem Evict_largest_backward_k_distance_witness :
    (WellFormed scenarioA ∧ Accounting scenarioA ∧
      (∃ e ∈ scenarioA.node_store_, e.2.is_evictable_ = true) ∧
      TimesUpTo 10 scenarioA.node_store_ ∧ 10 < INF) ∧
    ∃ f n, (scenarioA.Evict 10).2 = .ok (some f) ∧ find scenarioA.node_store_ f = some n ∧
      n.is_evictable_ = true ∧
      ∀ e ∈ scenarioA.node_store_, e.2.is_evictable_ = true →
        backwardKDistance scenarioA.k_ 10 e.2 ≤ backwardKDistance scenarioA.k_ 10 n :=
  have hwf : WellFormed scenarioA := by
    simp [WellFormed, UniqueKeys, scenarioA, isFrameId]
  have hacc : Accounting scenarioA := by
    simp [Accounting, countEvictable, scenarioA]
  have hex : ∃ e ∈ scenarioA.node_store_, e.2.is_evictable_ = true := by
    simp [scenarioA]
  have htime : TimesUpTo 10 scenarioA.node_store_ := by
    simp [TimesUpTo, scenarioA]
  have hnow : 10 < INF := by decide
  ⟨⟨hwf, hacc, hex, htime, hnow⟩,
    Evict_largest_backward_k_distance scenarioA 10 hwf hacc hex htime hnow⟩

/-- C1 as stated fails when a stored timestamp equals `INF`: with `k = 1`,
frame 1 accessed at `INF`, frame 2 at `INF - 1` and the clock at `INF`, every
hypothesis of the claim holds, frame 2 has backward k-distance 1 and frame 1
has 0, yet `Evict` returns frame 1, whose oldest timestamp the scan takes for
the sentinel. -/
theorem Evict_largest_backward_k_distance_fails_at_sentinel :
    (run (LRUKReplacer.new 5 1)
        [.recordAccess 2 (INF - 1), .recordAccess 1 INF, .setEvictable 1 true,
         .setEvictable 2 true] = stateAtSentinel ∧
      WellFormed stateAtSentinel ∧ Accounting stateAtSentinel ∧
      (∃ e ∈ stateAtSentinel.node_store_, e.2.is_evictable_ = true) ∧
      TimesUpTo INF stateAtSentinel.node_store_) ∧
    (stateAtSentinel.Evict INF).2 = .ok (some 1) ∧
    ¬ ∃ f n, (stateAtSentinel.Evict INF).2 = .ok (some f) ∧
      find stateAtSentinel.node_store_ f = some n ∧ n.is_evictable_ = true ∧
      ∀ e ∈ stateAtSentinel.node_store_, e.2.is_evictable_ = true →
        backwardKDistance stateAtSentinel.k_ INF e.2
          ≤ backwardKDistance stateAtSentinel.k_ INF n := by
  refine ⟨⟨by decide, ?_, ?_, ?_, ?_⟩, rfl, ?_⟩
  · simp [WellFormed, UniqueKeys, stateAtSentinel, isFrameId]
  · simp [Accounting, countEvictable, stateAtSentinel]
  · simp [stateAtSentinel]
  · simp [TimesUpTo, stateAtSentinel, INF]
  · rintro ⟨f, n, h1, h2, _, h4⟩
    have hE : (stateAtSentinel.Evict INF).2 = .ok (some 1) := rfl
    rw [hE] at h1
    have hf : f = 1 := by
      injection h1 with h1
      injection h1 with h1
      exact h1.symm
    subst hf
    have hfind : find stateAtSentinel.node_store_ 1
        = some ⟨[18446744073709551615], 1, 1, true⟩ := by
      decide
    rw [hfind] at h2
    injection h2 with h2
    subst h2
    have := h4 _ (List.mem_cons_self _ _) rfl
    revert this
    decide

/-! ## C2: a frame with fewer than k accesses goes first -/

/-- While the clock is below `INF` and not earlier than the timestamps of a node
with a full window, the distance the scan computes for it is not `INF`. -/
theorem kDistance_ne_INF (k now : Nat) (n : LRUKNode) (hk : n.k_ = k)
    (hlen : k ≤ n.history_.length) (ht : ∀ t ∈ n.history_, t ≤ now) (hnow : now < INF) :
    LRUKReplacer.kDistance now n ≠ INF := by
  rw [kDistance_eq_backwardKDistance k now n hk ht hnow]
  unfold backwardKDistance
  have hge : ¬ n.history_.length < k := by omega
  rw [if_neg hge]
  omega

/-- C2 (amended): in every well-formed state in which evictable frame `a` has
fewer than `k` recorded accesses and evictable frame `b` has at least `k`,
`Evict` does not return `b`, whatever the order in which the node store is
scanned and whatever the distance computed for `b`, as long as that distance
(now minus the oldest timestamp of its window modulo `2 ^ 64`, or `INF` when
that timestamp is `INF`) is not the sentinel `INF` itself. -/
theorem Evict_INF_precedence (s : LRUKReplacer) (now : Nat) (a b : Int)
    (nodeA nodeB : LRUKNode) (hwf : WellFormed s)
    (hA : find s.node_store_ a = some nodeA) (hB : find s.node_store_ b = some nodeB)
    (hAev : nodeA.is_evictable_ = true) (_hBev : nodeB.is_evictable_ = true)
    (hAlen : nodeA.history_.length < s.k_) (_hBlen : s.k_ ≤ nodeB.history_.length)
    (hBdist : LRUKReplacer.kDistance now nodeB ≠ INF) :
    (s.Evict now).2 ≠ .ok (some b) := by
  intro h
  obtain ⟨_, c, hc, hcb, _, hpref, _⟩ := Evict_returns s now b h
  have hAmem := find_some_mem _ _ _ hA
  have hcB : c.2 = nodeB := by
    have h1 := find_of_mem _ hwf.1 c hc
    rw [hcb, hB] at h1
    injection h1 with h1
    exact h1.symm
  have hkA : LRUKReplacer.kDistance now nodeA = INF := by
    have hk : nodeA.k_ = s.k_ := (hwf.2 _ hAmem).2
    have hlt : ¬ nodeA.history_.length ≥ nodeA.k_ := by omega
    simp [LRUKReplacer.kDistance, LRUKNode.GetOldestAccessTime, hlt]
  have hkB := kDistance_le_INF now nodeB
  have hp := hpref (a, nodeA) hAmem hAev
  unfold Preferred at hp
  rw [hcB] at hp
  simp only at hp
  omega

/-- Witness of C2 on scenario A of the spec at time 10: frame 2 has one access,
frame 1 has two and distance 9, and `Evict` returns frame 2, not frame 1. -/
theorem Evict_INF_precedence_witness :
    (WellFormed scenarioA ∧
      find scenarioA.node_store_ 2 = some ⟨[1], 2, 2, true⟩ ∧
      find scenarioA.node_store_ 1 = some ⟨[1, 2], 2, 1, true⟩ ∧
      LRUKReplacer.kDistance 10 ⟨[1, 2], 2, 1, true⟩ = 9) ∧
    (scenarioA.Evict 10).2 ≠ .ok (some 1) ∧ (scenarioA.Evict 10).2 = .ok (some 2) :=
  have hwf : WellFormed scenarioA := by
    simp [WellFormed, UniqueKeys, scenarioA, isFrameId]
  ⟨⟨hwf, rfl, rfl, by decide⟩,
    Evict_INF_precedence scenarioA 10 2 1 ⟨[1], 2, 2, true⟩ ⟨[1, 2], 2, 1, true⟩ hwf rfl rfl
      rfl rfl (by decide) (by decide) (by decide),
    rfl⟩

/-- C2 as stated fails when the computed distance of `b` is `INF` itself: with
`k = 2`, frame 1 accessed at times 0 and 1, frame 2 once at time 5 and the
clock at `INF`, frame 2 has fewer than `k` accesses and frame 1 has `k`, yet
`Evict` returns frame 1 in either scan order, because `INF - 0` ties with the
sentinel and frame 1 has the earlier last access.  The same happens at clock 4
for frame 1 accessed at 5 and 6 and frame 2 at 7, where `4 - 5` wraps to
`INF`. -/
theorem Evict_INF_precedence_fails_at_sentinel :
    (run (LRUKReplacer.new 5 2)
        [.recordAccess 1 0, .recordAccess 1 1, .recordAccess 2 5, .setEvictable 1 true,
         .setEvictable 2 true] = stateFromEpoch ∧
      WellFormed stateFromEpoch ∧ Accounting stateFromEpoch ∧
      TimesUpTo INF stateFromEpoch.node_store_ ∧
      find stateFromEpoch.node_store_ 2 = some ⟨[5], 2, 2, true⟩ ∧
      find stateFromEpoch.node_store_ 1 = some ⟨[0, 1], 2, 1, true⟩) ∧
    (stateFromEpoch.Evict INF).2 = .ok (some 1) ∧
    (LRUKReplacer.Evict
      { stateFromEpoch with node_store_ := stateFromEpoch.node_store_.reverse } INF).2
        = .ok (some 1) ∧
    ((run (LRUKReplacer.new 5 2)
        [.recordAccess 1 5, .recordAccess 1 6, .recordAccess 2 7, .setEvictable 1 true,
         .setEvictable 2 true]).Evict 4).2 = .ok (some 1) := by
  refine ⟨⟨by decide, ?_, ?_, ?_, rfl, rfl⟩, rfl, rfl, rfl⟩
  · simp [WellFormed, UniqueKeys, stateFromEpoch, isFrameId]
  · simp [Accounting, countEvictable, stateFromEpoch]
  · simp [TimesUpTo, stateFromEpoch, INF]

/-! ## C3: ties go to the earliest last access -/

/-- C3 (amended): for every well-formed state that satisfies the accounting
invariant and has an evictable node, and for every current time smaller than
`INF` and not smaller than any stored timestamp, the frame returned by `Evict`
is among the evictable nodes of largest backward k-distance and its
`LastAccessTime` is the smallest among the evictable nodes that share that
distance (all `INF`, or the same finite value). -/
theorem Evict_tie_break (s : LRUKReplacer) (now : Nat)
    (hwf : WellFormed s) (hacc : Accounting s)
    (hex : ∃ e ∈ s.node_store_, e.2.is_evictable_ = true)
    (htime : TimesUpTo now s.node_store_) (hnow : now < INF) :
    ∃ f n, (s.Evict now).2 = .ok (some f) ∧ find s.node_store_ f = some n ∧
      n.is_evictable_ = true ∧
      (∀ e ∈ s.node_store_, e.2.is_evictable_ = true →
        backwardKDistance s.k_ now e.2 ≤ backwardKDistance s.k_ now n) ∧
      (∀ e ∈ s.node_store_, e.2.is_evictable_ = true →
        backwardKDistance s.k_ now e.2 = backwardKDistance s.k_ now n →
        n.GetLastAccessTime ≤ e.2.GetLastAccessTime) :=
  Evict_victim s now hwf hacc hex htime hnow

/-- Witness of C3: three frames with one access each (all of distance `INF`)
at time 10; frame 2, accessed first, is evicted. -/
theorem Evict_tie_break_witness :
    (WellFormed stateUnderfull ∧ Accounting stateUnderfull ∧
      (∃ e ∈ stateUnderfull.node_store_, e.2.is_evictable_ = true) ∧
      TimesUpTo 10 stateUnderfull.node_store_ ∧ 10 < INF) ∧
    (stateUnderfull.Evict 10).2 = .ok (some 2) ∧
    ∃ f n, (stateUnderfull.Evict 10).2 = .ok (some f) ∧
      find stateUnderfull.node_store_ f = some n ∧ n.is_evictable_ = true ∧
      (∀ e ∈ stateUnderfull.node_store_, e.2.is_evictable_ = true →
        backwardKDistance stateUnderfull.k_ 10 e.2 ≤ backwardKDistance stateUnderfull.k_ 10 n) ∧
      (∀ e ∈ stateUnderfull.node_store_, e.2.is_evictable_ = true →
        backwardKDistance stateUnderfull.k_ 10 e.2 = backwardKDistance stateUnderfull.k_ 10 n →
        n.GetLastAccessTime ≤ e.2.GetLastAccessTime) :=
  have hwf : WellFormed stateUnderfull := by
    simp [WellFormed, UniqueKeys, stateUnderfull, isFrameId]
  have hacc : Accounting stateUnderfull := by
    simp [Accounting, countEvictable, stateUnderfull]
  have hex : ∃ e ∈ stateUnderfull.node_store_, e.2.is_evictable_ = true := by
    simp [stateUnderfull]
  have htime : TimesUpTo 10 stateUnderfull.node_store_ := by
    simp [TimesUpTo, stateUnderfull]
  have hnow : 10 < INF := by decide
  ⟨⟨hwf, hacc, hex, htime, hnow⟩, rfl,
    Evict_tie_break stateUnderfull 10 hwf hacc hex htime hnow⟩

/-- C3 as stated fails when a stored timestamp equals `INF`: with `k = 2` and
the clock at `INF`, frames 2 and 3 share the largest backward k-distance 3 and
frame 2 has the smaller last access, yet `Evict` returns frame 1, of distance
0, whose oldest timestamp `INF` the scan takes for the sentinel. -/
theorem Evict_tie_break_fails_at_sentinel :
    (run (LRUKReplacer.new 5 2)
        [.recordAccess 2 (INF - 3), .recordAccess 3 (INF - 3), .recordAccess 2 (INF - 2),
         .recordAccess 3 (INF - 1), .recordAccess 1 INF, .recordAccess 1 INF,
         .setEvictable 1 true, .setEvictable 2 true, .setEvictable 3 true]
        = stateTiedAtSentinel ∧
      WellFormed stateTiedAtSentinel ∧ Accounting stateTiedAtSentinel ∧
      (∃ e ∈ stateTiedAtSentinel.node_store_, e.2.is_evictable_ = true) ∧
      TimesUpTo INF stateTiedAtSentinel.node_store_) ∧
    (stateTiedAtSentinel.node_store_.map
        (fun e => (e.1, backwardKDistance 2 INF e.2, e.2.GetLastAccessTime))
      = [(2, 3, INF - 2), (3, 3, INF - 1), (1, 0, INF)]) ∧
    (stateTiedAtSentinel.Evict INF).2 = .ok (some 1) ∧
    ¬ ∃ f n, (stateTiedAtSentinel.Evict INF).2 = .ok (some f) ∧
      find stateTiedAtSentinel.node_store_ f = some n ∧ n.is_evictable_ = true ∧
      (∀ e ∈ stateTiedAtSentinel.node_store_, e.2.is_evictable_ = true →
        backwardKDistance stateTiedAtSentinel.k_ INF e.2
          ≤ backwardKDistance stateTiedAtSentinel.k_ INF n) ∧
      (∀ e ∈ stateTiedAtSentinel.node_store_, e.2.is_evictable_ = true →
        backwardKDistance stateTiedAtSentinel.k_ INF e.2
          = backwardKDistance stateTiedAtSentinel.k_ INF n →
        n.GetLastAccessTime ≤ e.2.GetLastAccessTime) := by
  refine ⟨⟨by decide, ?_, ?_, ?_, ?_⟩, by decide, rfl, ?_⟩
  · simp [WellFormed, UniqueKeys, stateTiedAtSentinel, isFrameId]
  · simp [Accounting, countEvictable, stateTiedAtSentinel]
  · simp [stateTiedAtSentinel]
  · simp [TimesUpTo, stateTiedAtSentinel, INF]
  · rintro ⟨f, n, h1, h2, _, h4, _⟩
    have hE : (stateTiedAtSentinel.Evict INF).2 = .ok (some 1) := rfl
    rw [hE] at h1
    have hf : f = 1 := by
      injection h1 with h1
      injection h1 with h1
      exact h1.symm
    subst hf
    have hfind : find stateTiedAtSentinel.node_store_ 1
        = some ⟨[18446744073709551615, 18446744073709551615], 2, 1, true⟩ := by
      decide
    rw [hfind] at h2
    injection h2 with h2
    subst h2
    have := h4 _ (List.mem_cons_self _ _) rfl
    revert this
    decide

/-! ## Effect of the node store operations -/

theorem map_fst_modify (store : List (Int × LRUKNode)) (i : Int) (f : LRUKNode → LRUKNode) :
    (modify store i f).map Prod.fst = store.map Prod.fst := by
  unfold modify
  rw [List.map_map]
  apply List.map_congr_left
  intro e _
  simp only [Function.comp]
  split_ifs <;> rfl

theorem find_modify (store : List (Int × LRUKNode)) (i j : Int) (f : LRUKNode → LRUKNode) :
    find (modify store i f) j = if j = i then (find store i).map f else find store j := by
  induction store with
  | nil => simp [modify, find]
  | cons e rest ih =>
    unfold modify at ih ⊢
    rw [List.map_cons]
    by_cases hei : e.1 = i
    · rw [if_pos hei]
      by_cases hji : j = i
      · simp [find, hei, hji]
      · have hej : ¬ e.1 = j := fun h => hji (h.symm.trans hei)
        rw [if_neg hji] at ih ⊢
        simp only [find, hej, if_false]
        exact ih
    · rw [if_neg hei]
      by_cases hji : j = i
      · rw [if_pos hji] at ih ⊢
        have hej : ¬ e.1 = j := fun h => hei (h.trans hji)
        simp only [find, hej, hei, if_false]
        exact ih
      · rw [if_neg hji] at ih ⊢
        by_cases hej : e.1 = j
        · simp [find, hej]
        · simp only [find, hej, if_false]
          exact ih

theorem find_erase (store : List (Int × LRUKNode)) (i j : Int) :
    find (erase store i) j = if j = i then none else find store j := by
  induction store with
  | nil => simp [erase, find]
  | cons e rest ih =>
    unfold erase at ih ⊢
    by_cases hei : e.1 = i
    · have : decide (e.1 ≠ i) = false := by simp [hei]
      rw [List.filter_cons_of_neg (by simp [hei])]
      rw [ih]
      by_cases hji : j = i
      · simp [hji]
      · have hej : ¬ e.1 = j := fun h => hji (h.symm.trans hei)
        simp [find, hej, hji]
    · rw [List.filter_cons_of_pos (by simp [hei])]
      by_cases hej : e.1 = j
      · have hji : ¬ j = i := fun h => hei (hej.trans h)
        simp [find, hej, hji]
      · simp only [find, hej, if_false]
        exact ih

theorem find_emplace (store : List (Int × LRUKNode)) (i j : Int) (n : LRUKNode) :
    find (emplace store i n) j =
      match find store j with
      | some m => some m
      | none => if i = j then some n else none := by
  induction store with
  | nil => simp [emplace, find]
  | cons e rest ih =>
    unfold emplace at ih ⊢
    rw [List.cons_append]
    by_cases hej : e.1 = j
    · simp [find, hej]
    · simp only [find, hej, if_false]
      exact ih

theorem mem_modify (store : List (Int × LRUKNode)) (i : Int) (f : LRUKNode → LRUKNode)
    (e : Int × LRUKNode) (he : e ∈ modify store i f) :
    ∃ e0 ∈ store, e.1 = e0.1 ∧ (e.2 = e0.2 ∨ e.2 = f e0.2) := by
  unfold modify at he
  obtain ⟨e0, he0, heq⟩ := List.mem_map.1 he
  refine ⟨e0, he0, ?_⟩
  split_ifs at heq
  · rw [← heq]; exact ⟨rfl, Or.inr rfl⟩
  · rw [← heq]; exact ⟨rfl, Or.inl rfl⟩

theorem countEvictable_modify_same (store : List (Int × LRUKNode)) (i : Int)
    (f : LRUKNode → LRUKNode) (hf : ∀ n, (f n).is_evictable_ = n.is_evictable_) :
    countEvictable (modify store i f) = countEvictable store := by
  induction store with
  | nil => rfl
  | cons e rest ih =>
    unfold countEvictable modify at ih ⊢
    rw [List.map_cons, List.countP_cons, List.countP_cons, ih]
    split_ifs <;> simp_all

/-- A store with unique keys splits around the entry of a stored key. -/
theorem split_of_find (store : List (Int × LRUKNode)) (hu : UniqueKeys store) (i : Int)
    (n : LRUKNode) (hf : find store i = some n) :
    ∃ l1 l2, store = l1 ++ (i, n) :: l2 ∧ (∀ e ∈ l1, e.1 ≠ i) ∧ (∀ e ∈ l2, e.1 ≠ i) := by
  obtain ⟨l1, l2, hs⟩ := List.append_of_mem (find_some_mem store i n hf)
  refine ⟨l1, l2, hs, ?_, ?_⟩
  · intro e he heq
    rw [hs] at hu
    unfold UniqueKeys at hu
    rw [List.map_append, List.map_cons, List.nodup_append] at hu
    have hmem : e.1 ∈ i :: List.map Prod.fst l2 := by
      rw [heq]
      exact List.mem_cons_self _ _
    exact hu.2.2 (List.mem_map_of_mem Prod.fst he) hmem
  · intro e he heq
    rw [hs] at hu
    unfold UniqueKeys at hu
    rw [List.map_append, List.map_cons, List.nodup_append, List.nodup_cons] at hu
    have hmem := List.mem_map_of_mem Prod.fst he
    rw [heq] at hmem
    exact hu.2.1.1 hmem

theorem modify_of_ne (l : List (Int × LRUKNode)) (i : Int) (f : LRUKNode → LRUKNode)
    (h : ∀ e ∈ l, e.1 ≠ i) : modify l i f = l := by
  unfold modify
  conv_rhs => rw [← List.map_id l]
  apply List.map_congr_left
  intro e he
  rw [if_neg (h e he)]
  rfl

theorem erase_of_ne (l : List (Int × LRUKNode)) (i : Int) (h : ∀ e ∈ l, e.1 ≠ i) :
    erase l i = l := by
  unfold erase
  apply List.filter_eq_self.2
  intro e he
  simpa using h e he

theorem modify_split (l1 l2 : List (Int × LRUKNode)) (i : Int) (n : LRUKNode)
    (f : LRUKNode → LRUKNode) (h1 : ∀ e ∈ l1, e.1 ≠ i) (h2 : ∀ e ∈ l2, e.1 ≠ i) :
    modify (l1 ++ (i, n) :: l2) i f = l1 ++ (i, f n) :: l2 := by
  have e1 := modify_of_ne l1 i f h1
  have e2 := modify_of_ne l2 i f h2
  unfold modify at e1 e2 ⊢
  rw [List.map_append, List.map_cons, e1, e2]
  simp

theorem erase_split (l1 l2 : List (Int × LRUKNode)) (i : Int) (n : LRUKNode)
    (h1 : ∀ e ∈ l1, e.1 ≠ i) (h2 : ∀ e ∈ l2, e.1 ≠ i) :
    erase (l1 ++ (i, n) :: l2) i = l1 ++ l2 := by
  have e1 := erase_of_ne l1 i h1
  have e2 := erase_of_ne l2 i h2
  unfold erase at e1 e2 ⊢
  rw [List.filter_append, List.filter_cons_of_neg (by simp), e1, e2]

/-- Setting the flag of a stored node moves the evictable count by the
difference of the new and the old flag. -/
theorem countEvictable_set (store : List (Int × LRUKNode)) (hu : UniqueKeys store) (i : Int)
    (n : LRUKNode) (hf : find store i = some n) (b : Bool) :
    countEvictable (modify store i (fun m => m.SetEvictable b)) + (if n.is_evictable_ then 1 else 0)
      = countEvictable store + (if b then 1 else 0) := by
  obtain ⟨l1, l2, hs, h1, h2⟩ := split_of_find store hu i n hf
  rw [hs, modify_split l1 l2 i n _ h1 h2]
  unfold countEvictable
  rw [List.countP_append, List.countP_append, List.countP_cons, List.countP_cons]
  simp only [LRUKNode.SetEvictable]
  cases b <;> cases n.is_evictable_ <;> simp <;> omega

/-- Erasing a stored evictable node lowers the evictable count by one. -/
theorem countEvictable_erase (store : List (Int × LRUKNode)) (hu : UniqueKeys store) (i : Int)
    (n : LRUKNode) (hf : find store i = some n) (hev : n.is_evictable_ = true) :
    countEvictable (erase store i) + 1 = countEvictable store := by
  obtain ⟨l1, l2, hs, h1, h2⟩ := split_of_find store hu i n hf
  rw [hs, erase_split l1 l2 i n h1 h2]
  unfold countEvictable
  rw [List.countP_append, List.countP_append, List.countP_cons]
  simp [hev]
  omega

/-- A well-formed store has at most `2 ^ 32` nodes, one per `frame_id_t` value. -/
theorem length_le_of_WellFormed (s : LRUKReplacer) (h : WellFormed s) :
    s.node_store_.length ≤ 4294967296 := by
  have hsub : (s.node_store_.map Prod.fst).toFinset
      ⊆ Finset.Ico (-2147483648 : Int) 2147483648 := by
    intro x hx
    rw [List.mem_toFinset] at hx
    obtain ⟨e, he, hxe⟩ := List.mem_map.1 hx
    have := (h.2 e he).1
    unfold isFrameId at this
    rw [Finset.mem_Ico, ← hxe]
    exact this
  have hcard := Finset.card_le_card hsub
  rw [List.toFinset_card_of_nodup h.1, Int.card_Ico, List.length_map] at hcard
  simpa using hcard

theorem countEvictable_le (s : LRUKReplacer) (h : WellFormed s) :
    countEvictable s.node_store_ ≤ 4294967296 :=
  le_trans (List.countP_le_length _) (length_le_of_WellFormed s h)

/-! ## The state invariant is kept by every entry point -/

theorem size_t_dec_eq (c : Nat) (h1 : 1 ≤ c) (h2 : c ≤ 4294967296) : size_t_dec c + 1 = c := by
  unfold size_t_dec SIZE_MOD
  omega

theorem size_t_inc_eq (c : Nat) (h2 : c ≤ 4294967296) : size_t_inc c = c + 1 := by
  unfold size_t_inc SIZE_MOD
  omega

theorem Inv_new (num_frames k : Nat) : Inv (LRUKReplacer.new num_frames k) := by
  refine ⟨⟨?_, ?_⟩, ?_⟩
  · simp [UniqueKeys, LRUKReplacer.new]
  · simp [LRUKReplacer.new]
  · simp [Accounting, countEvictable, LRUKReplacer.new]

theorem UniqueKeys_erase (store : List (Int × LRUKNode)) (i : Int) (hu : UniqueKeys store) :
    UniqueKeys (erase store i) := by
  unfold UniqueKeys erase at *
  exact List.Nodup.sublist (List.Sublist.map _ (List.filter_sublist _)) hu

theorem RemoveUnLock_Inv (s : LRUKReplacer) (i : Int) (h : Inv s) : Inv (s.RemoveUnLock i).1 := by
  unfold LRUKReplacer.RemoveUnLock
  cases hf : find s.node_store_ i with
  | none => exact h
  | some node =>
    simp only [LRUKNode.IsEvictable]
    by_cases hev : node.is_evictable_ = true
    · rw [if_pos hev]
      refine ⟨⟨UniqueKeys_erase _ _ h.1.1, ?_⟩, ?_⟩
      · intro e he
        exact h.1.2 e (List.mem_of_mem_filter he)
      · have hc := countEvictable_erase s.node_store_ h.1.1 i node hf hev
        have hle := countEvictable_le s h.1
        have hacc := h.2
        unfold Accounting at hacc ⊢
        simp only
        have := size_t_dec_eq s.curr_size_ (by omega) (by omega)
        omega
    · rw [if_neg hev]
      exact h

theorem Evict_fst (s : LRUKReplacer) (now : Nat) :
    (s.Evict now).1 = s ∨ ∃ i, (s.Evict now).1 = (s.RemoveUnLock i).1 := by
  unfold LRUKReplacer.Evict
  split_ifs
  · exact Or.inl rfl
  · cases (LRUKReplacer.evictScan now s.node_store_).1 with
    | none => exact Or.inl rfl
    | some c =>
      right
      refine ⟨c.1, ?_⟩
      simp only
      rcases s.RemoveUnLock c.1 with ⟨s2, r⟩
      cases r <;> rfl

theorem Evict_Inv (s : LRUKReplacer) (now : Nat) (h : Inv s) : Inv (s.Evict now).1 := by
  rcases Evict_fst s now with h1 | ⟨i, h1⟩
  · rw [h1]; exact h
  · rw [h1]; exact RemoveUnLock_Inv s i h

theorem SetEvictable_same (s : LRUKReplacer) (i : Int) (b : Bool) (n : LRUKNode)
    (hf : find s.node_store_ i = some n) (hn : n.is_evictable_ = b) :
    s.SetEvictable i b = s := by
  unfold LRUKReplacer.SetEvictable
  rw [hf]
  simp only [LRUKNode.IsEvictable, hn]
  cases b <;> simp

theorem SetEvictable_true (s : LRUKReplacer) (i : Int) (n : LRUKNode)
    (hf : find s.node_store_ i = some n) (hn : n.is_evictable_ = false) :
    s.SetEvictable i true =
      { s with curr_size_ := size_t_inc s.curr_size_,
               node_store_ := modify s.node_store_ i (fun m => m.SetEvictable true) } := by
  unfold LRUKReplacer.SetEvictable
  rw [hf]
  simp [LRUKNode.IsEvictable, hn]

theorem SetEvictable_false (s : LRUKReplacer) (i : Int) (n : LRUKNode)
    (hf : find s.node_store_ i = some n) (hn : n.is_evictable_ = true) :
    s.SetEvictable i false =
      { s with curr_size_ := size_t_dec s.curr_size_,
               node_store_ := modify s.node_store_ i (fun m => m.SetEvictable false) } := by
  unfold LRUKReplacer.SetEvictable
  rw [hf]
  simp [LRUKNode.IsEvictable, hn]

theorem SetEvictable_unknown (s : LRUKReplacer) (i : Int) (b : Bool)
    (hf : find s.node_store_ i = none) : s.SetEvictable i b = s := by
  unfold LRUKReplacer.SetEvictable
  rw [hf]

theorem WellFormed_modify (s : LRUKReplacer) (i : Int) (f : LRUKNode → LRUKNode)
    (hk : ∀ n, (f n).k_ = n.k_) (store : List (Int × LRUKNode)) (c : Nat)
    (hu : UniqueKeys store) (hall : ∀ e ∈ store, isFrameId e.1 ∧ e.2.k_ = s.k_) :
    WellFormed { s with node_store_ := modify store i f, curr_size_ := c } := by
  refine ⟨?_, ?_⟩
  · unfold UniqueKeys
    simp only
    rw [map_fst_modify]
    exact hu
  · intro e he
    obtain ⟨e0, he0, h1, h2⟩ := mem_modify store i f e he
    have := hall e0 he0
    rw [h1]
    refine ⟨this.1, ?_⟩
    rcases h2 with h2 | h2
    · rw [h2]; exact this.2
    · rw [h2, hk]; exact this.2

theorem SetEvictable_Inv (s : LRUKReplacer) (i : Int) (b : Bool) (h : Inv s) :
    Inv (s.SetEvictable i b) := by
  cases hf : find s.node_store_ i with
  | none => rw [SetEvictable_unknown s i b hf]; exact h
  | some n =>
    by_cases hsame : n.is_evictable_ = b
    · rw [SetEvictable_same s i b n hf hsame]; exact h
    · have hc := countEvictable_set s.node_store_ h.1.1 i n hf b
      have hle := countEvictable_le s h.1
      have hacc := h.2
      unfold Accounting at hacc
      cases b with
      | true =>
        have hn : n.is_evictable_ = false := by
          rcases Bool.eq_false_or_eq_true n.is_evictable_ with hh | hh
          · exact absurd hh hsame
          · exact hh
        rw [SetEvictable_true s i n hf hn]
        have hwf := WellFormed_modify s i (fun m => m.SetEvictable true) (fun _ => rfl)
          s.node_store_ (size_t_inc s.curr_size_) h.1.1 h.1.2
        refine ⟨hwf, ?_⟩
        have hle2 := countEvictable_le _ hwf
        rw [hn] at hc
        simp only [Bool.false_eq_true, if_false, if_true, add_zero] at hc
        unfold Accounting
        simp only at hle2 ⊢
        rw [size_t_inc_eq _ (by omega)]
        omega
      | false =>
        have hn : n.is_evictable_ = true := by
          rcases Bool.eq_false_or_eq_true n.is_evictable_ with hh | hh
          · exact hh
          · exact absurd hh hsame
        rw [SetEvictable_false s i n hf hn]
        refine ⟨WellFormed_modify s i (fun m => m.SetEvictable false) (fun _ => rfl)
          s.node_store_ (size_t_dec s.curr_size_) h.1.1 h.1.2, ?_⟩
        rw [hn] at hc
        simp only [Bool.false_eq_true, if_false, if_true, add_zero] at hc
        unfold Accounting
        simp only
        have := size_t_dec_eq s.curr_size_ (by omega) (by omega)
        omega

theorem RecordAccess_Inv (s : LRUKReplacer) (i : Int) (t : Nat) (h : Inv s)
    (hi : isFrameId i) : Inv (s.RecordAccess i t) := by
  have hk : ∀ n : LRUKNode, (n.RecordAccessTime t).k_ = n.k_ := fun _ => rfl
  have hev : ∀ n : LRUKNode, (n.RecordAccessTime t).is_evictable_ = n.is_evictable_ :=
    fun _ => rfl
  unfold LRUKReplacer.RecordAccess
  cases hf : find s.node_store_ i with
  | some n =>
    simp only
    refine ⟨WellFormed_modify s i _ hk s.node_store_ s.curr_size_ h.1.1 h.1.2, ?_⟩
    unfold Accounting
    simp only
    rw [countEvictable_modify_same _ _ _ hev]
    exact h.2
  | none =>
    simp only
    have hu : UniqueKeys (emplace s.node_store_ i (LRUKNode.new s.k_ i)) := by
      unfold UniqueKeys emplace
      rw [List.map_append, List.nodup_append]
      refine ⟨h.1.1, by simp, ?_⟩
      intro a ha1 ha2
      rw [List.map_singleton, List.mem_singleton] at ha2
      rw [ha2] at ha1
      exact (find_none_iff _ _).1 hf ha1
    have hall : ∀ e ∈ emplace s.node_store_ i (LRUKNode.new s.k_ i),
        isFrameId e.1 ∧ e.2.k_ = s.k_ := by
      intro e he
      unfold emplace at he
      rcases List.mem_append.1 he with he | he
      · exact h.1.2 e he
      · rw [List.mem_singleton.1 he]
        exact ⟨hi, rfl⟩
    refine ⟨WellFormed_modify s i _ hk _ s.curr_size_ hu hall, ?_⟩
    unfold Accounting
    simp only
    rw [countEvictable_modify_same _ _ _ hev]
    have hacc := h.2
    unfold Accounting at hacc
    rw [hacc]
    unfold countEvictable emplace
    rw [List.countP_append]
    simp [LRUKNode.new]

theorem step_Inv (s : LRUKReplacer) (c : Call) (h : Inv s) (hc : c.typed) : Inv (step s c) := by
  cases c with
  | recordAccess i t => exact RecordAccess_Inv s i t h hc
  | setEvictable i b => exact SetEvictable_Inv s i b h
  | evict now => exact Evict_Inv s now h
  | remove i => exact RemoveUnLock_Inv s i h

theorem run_Inv (calls : List Call) (s : LRUKReplacer) (h : Inv s)
    (hc : ∀ c ∈ calls, c.typed) : Inv (run s calls) := by
  induction calls generalizing s with
  | nil => exact h
  | cons c rest ih =>
    unfold run
    rw [List.foldl_cons]
    exact ih (step s c) (step_Inv s c h (hc c (List.mem_cons_self _ _)))
      (fun d hd => hc d (List.mem_cons_of_mem _ hd))

/-! ## C4: accounting invariant -/

/-- C4: starting from a freshly constructed replacer, after every finite
sequence of `RecordAccess`, `SetEvictable`, `Evict` and `Remove` calls on
`frame_id_t` values (calls that throw included), `Size()` equals the number of
nodes in the node store whose evictable flag is true. -/
theorem accounting_invariant (num_frames k : Nat) (calls : List Call)
    (htyped : ∀ c ∈ calls, c.typed) :
    (run (LRUKReplacer.new num_frames k) calls).Size
      = countEvictable (run (LRUKReplacer.new num_frames k) calls).node_store_ := by
  have hinv := run_Inv calls (LRUKReplacer.new num_frames k) (Inv_new num_frames k) htyped
  have hacc := hinv.2
  unfold Accounting at hacc
  unfold LRUKReplacer.Size
  exact hacc

/-- Witness of C4 on a call sequence in which `Remove` throws once: the calls
are well typed, the throwing call is among them, and the count is right. -/
theorem accounting_invariant_witness :
    ((∀ c ∈ callsWithThrow, c.typed) ∧
      ((run (LRUKReplacer.new 5 2) [.recordAccess 1 1]).Remove 1).2
        = .error "Logical error: Remove a non-evictable frame") ∧
    (run (LRUKReplacer.new 5 2) callsWithThrow).Size
      = countEvictable (run (LRUKReplacer.new 5 2) callsWithThrow).node_store_ :=
  have htyped : ∀ c ∈ callsWithThrow, c.typed := by
    simp [callsWithThrow, Call.typed, isFrameId]
  ⟨⟨htyped, rfl⟩, accounting_invariant 5 2 callsWithThrow htyped⟩

/-! ## C5: window bound -/

theorem RecordAccessTime_history (n : LRUKNode) (t : Nat) :
    (n.RecordAccessTime t).history_
      = (if n.history_.length ≥ n.k_ then n.history_.tail else n.history_) ++ [t] := rfl

theorem foldl_RecordAccessTime (k : Nat) (hk : 0 < k) (fid : Int) (ts : List Nat) :
    (ts.foldl LRUKNode.RecordAccessTime (LRUKNode.new k fid)).k_ = k ∧
    (ts.foldl LRUKNode.RecordAccessTime (LRUKNode.new k fid)).history_
      = ts.drop (ts.length - k) := by
  induction ts using List.reverseRecOn with
  | nil => exact ⟨rfl, by simp [LRUKNode.new]⟩
  | append_singleton l t ih =>
    rw [List.foldl_append, List.foldl_cons, List.foldl_nil]
    obtain ⟨ihk, ihh⟩ := ih
    refine ⟨ihk, ?_⟩
    rw [RecordAccessTime_history, ihk, ihh, List.length_append, List.length_singleton,
      List.length_drop]
    by_cases hlen : l.length < k
    · have h0 : l.length - k = 0 := by omega
      have h1 : l.length + 1 - k = 0 := by omega
      have h2 : ¬ l.length - (l.length - k) ≥ k := by omega
      rw [if_neg h2, h0, h1, List.drop_zero, List.drop_zero]
    · have h2 : l.length - (l.length - k) ≥ k := by omega
      have h3 : l.length + 1 - k = l.length - k + 1 := by omega
      rw [if_pos h2, List.tail_drop, h3, List.drop_append_of_le_length (by omega)]

/-- C5: for every `k > 0` and every sequence of `n` timestamps passed to
`RecordAccessTime` on a fresh node, the stored history has length `min n k` and
is the last `min n k` timestamps of the sequence in the order recorded. -/
theorem RecordAccessTime_window_bound (k : Nat) (hk : 0 < k) (fid : Int) (ts : List Nat) :
    (ts.foldl LRUKNode.RecordAccessTime (LRUKNode.new k fid)).history_.length
      = min ts.length k ∧
    (ts.foldl LRUKNode.RecordAccessTime (LRUKNode.new k fid)).history_
      = ts.drop (ts.length - min ts.length k) := by
  have h := (foldl_RecordAccessTime k hk fid ts).2
  have hsub : ts.length - min ts.length k = ts.length - k := by omega
  rw [hsub, h, List.length_drop]
  exact ⟨by omega, rfl⟩

/-- Witness of C5: five accesses into a window of three keep the last three. -/
theorem RecordAccessTime_window_bound_witness :
    0 < 3 ∧
    ([10, 20, 30, 40, 50].foldl LRUKNode.RecordAccessTime (LRUKNode.new 3 1)).history_
      = [30, 40, 50] ∧
    ([10, 20, 30, 40, 50].foldl LRUKNode.RecordAccessTime (LRUKNode.new 3 1)).history_.length
      = min [10, 20, 30, 40, 50].length 3 :=
  ⟨by decide, (RecordAccessTime_window_bound 3 (by decide) 1 [10, 20, 30, 40, 50]).2,
    (RecordAccessTime_window_bound 3 (by decide) 1 [10, 20, 30, 40, 50]).1⟩

/-! ## C6: Remove -/

/-- C6: `Remove(frame_id)` throws if and only if `frame_id` is in the node store
and its node is not evictable; when it throws, the state (node store and
`Size()`) is as before the call; when `frame_id` is absent, the call returns
normally and changes nothing. -/
theorem Remove_throws_iff (s : LRUKReplacer) (frame_id : Int) :
    ((∃ msg, (s.Remove frame_id).2 = .error msg) ↔
      ∃ n, find s.node_store_ frame_id = some n ∧ n.is_evictable_ = false) ∧
    ((∃ msg, (s.Remove frame_id).2 = .error msg) → (s.Remove frame_id).1 = s) ∧
    (find s.node_store_ frame_id = none → s.Remove frame_id = (s, .ok ())) := by
  unfold LRUKReplacer.Remove LRUKReplacer.RemoveUnLock
  cases hf : find s.node_store_ frame_id with
  | none =>
    refine ⟨⟨?_, ?_⟩, fun _ => rfl, fun _ => rfl⟩
    · rintro ⟨msg, h⟩; cases h
    · rintro ⟨n, h, _⟩; cases h
  | some node =>
    simp only [LRUKNode.IsEvictable]
    by_cases hev : node.is_evictable_ = true
    · rw [if_pos hev]
      refine ⟨⟨?_, ?_⟩, ?_, ?_⟩
      · rintro ⟨msg, h⟩; cases h
      · rintro ⟨n, h, hn⟩
        injection h with h
        rw [← h, hev] at hn
        cases hn
      · rintro ⟨msg, h⟩; cases h
      · intro h; cases h
    · rw [if_neg hev]
      refine ⟨⟨fun _ => ⟨node, rfl, ?_⟩, fun _ => ⟨_, rfl⟩⟩, fun _ => rfl, ?_⟩
      · rcases Bool.eq_false_or_eq_true node.is_evictable_ with hh | hh
        · exact absurd hh hev
        · exact hh
      · intro h; cases h

/-! ## C7: frame ids are not validated -/

/-- C7 (the code at the failing input): on a replacer of capacity 5 no entry
point rejects frame id 7, nor frame id -1: `RecordAccess` creates a node for
it, `SetEvictable` counts it, `Evict` returns it, and `Remove` of an id outside
the range returns normally. -/
theorem RecordAccess_accepts_invalid_frame_id :
    (LRUKReplacer.new 5 2).RecordAccess 7 1 =
      { node_store_ := [(7, ⟨[1], 2, 7, false⟩)], curr_size_ := 0, replacer_size_ := 5,
        k_ := 2 } ∧
    (((LRUKReplacer.new 5 2).RecordAccess 7 1).SetEvictable 7 true).Size = 1 ∧
    ((((LRUKReplacer.new 5 2).RecordAccess 7 1).SetEvictable 7 true).Evict 2).2
      = .ok (some 7) ∧
    ((((LRUKReplacer.new 5 2).RecordAccess 7 1).SetEvictable 7 true).Remove 7).2 = .ok () ∧
    ((LRUKReplacer.new 5 2).Remove 7) = (LRUKReplacer.new 5 2, .ok ()) ∧
    (LRUKReplacer.new 5 2).SetEvictable 7 true = LRUKReplacer.new 5 2 ∧
    find ((LRUKReplacer.new 5 2).RecordAccess (-1) 1).node_store_ (-1)
      = some ⟨[1], 2, -1, false⟩ := by
  refine ⟨by decide, by decide, rfl, rfl, rfl, by decide, by decide⟩

/-! ## C8: Evict returns none exactly when nothing is evictable -/

theorem Evict_of_candidate (s : LRUKReplacer) (now : Nat) (h0 : s.curr_size_ ≠ 0)
    (c : Int × LRUKNode) (hc : (LRUKReplacer.evictScan now s.node_store_).1 = some c) :
    (s.Evict now).2 = .ok (some c.1) ∨ ∃ msg, (s.Evict now).2 = .error msg := by
  unfold LRUKReplacer.Evict
  rw [if_neg h0, hc]
  simp only
  rcases s.RemoveUnLock c.1 with ⟨s2, r⟩
  cases r with
  | error e => exact Or.inr ⟨e, rfl⟩
  | ok u => exact Or.inl rfl

/-- C8: for every state satisfying the accounting invariant, `Evict` returns
none if and only if no node in the node store is evictable, and in that case
the node store and `Size()` are unchanged. -/
theorem Evict_none_iff (s : LRUKReplacer) (now : Nat) (hacc : Accounting s) :
    ((s.Evict now).2 = .ok none ↔ ∀ e ∈ s.node_store_, e.2.is_evictable_ = false) ∧
    ((∀ e ∈ s.node_store_, e.2.is_evictable_ = false) → (s.Evict now).1 = s) := by
  refine ⟨⟨?_, ?_⟩, ?_⟩
  · intro h e he
    by_cases h0 : s.curr_size_ = 0
    · unfold Accounting countEvictable at hacc
      rw [h0] at hacc
      have := List.countP_eq_zero.1 hacc.symm e he
      simpa using this
    · rcases evictScan_spec now s.node_store_ with ⟨_, h2⟩ | ⟨c, h1, _, _, _⟩
      · exact h2 e he
      · have hc : (LRUKReplacer.evictScan now s.node_store_).1 = some c := by rw [h1]
        rcases Evict_of_candidate s now h0 c hc with h3 | ⟨msg, h3⟩
        · rw [h3] at h; cases h
        · rw [h3] at h; cases h
  · intro h
    rw [Evict_none s now (Or.inr h)]
  · intro h
    rw [Evict_none s now (Or.inr h)]

/-- Witness of C8: a replacer whose only frame is pinned; `Evict` returns none
and leaves the state as it was. -/
theorem Evict_none_iff_witness :
    Accounting statePinned ∧
    (((statePinned.Evict 9).2 = .ok none ↔
        ∀ e ∈ statePinned.node_store_, e.2.is_evictable_ = false) ∧
      ((∀ e ∈ statePinned.node_store_, e.2.is_evictable_ = false) →
        (statePinned.Evict 9).1 = statePinned)) ∧
    statePinned.Evict 9 = (statePinned, .ok none) :=
  have hacc : Accounting statePinned := by
    simp [Accounting, countEvictable, statePinned]
  ⟨hacc, Evict_none_iff statePinned 9 hacc, rfl⟩

/-! ## C9: removal completeness -/

theorem RecordAccess_fresh (s : LRUKReplacer) (f : Int) (t : Nat)
    (hf : find s.node_store_ f = none) :
    find (s.RecordAccess f t).node_store_ f
      = some { history_ := [t], k_ := s.k_, fid_ := f, is_evictable_ := false } := by
  unfold LRUKReplacer.RecordAccess
  rw [hf]
  simp only
  rw [find_modify, if_pos rfl, find_emplace, hf]
  simp only [if_true, Option.map_some']
  unfold LRUKNode.RecordAccessTime LRUKNode.new
  simp

theorem Size_eq (s : LRUKReplacer) : s.Size = s.curr_size_ := rfl

theorem Accounting_pos_of_find (s : LRUKReplacer) (hinv : Inv s) (f : Int) (n : LRUKNode)
    (hf : find s.node_store_ f = some n) (hev : n.is_evictable_ = true) :
    1 ≤ s.curr_size_ ∧ s.curr_size_ ≤ 4294967296 := by
  have h1 := Accounting_curr_size_ne_zero s hinv.2 ⟨(f, n), find_some_mem _ _ _ hf, hev⟩
  have h2 := countEvictable_le s hinv.1
  have hacc := hinv.2
  unfold Accounting at hacc
  omega

/-- C9: in a state satisfying the state invariant, after `Evict` returns frame
id `f`, or after `Remove(f)` succeeds on a known evictable `f`, `f` is absent
from the node store, `Size()` has decreased by exactly one and every other
node is unchanged; a subsequent `RecordAccess(f)` at time `t` produces a node
for `f` whose history is exactly `[t]`. -/
theorem removal_completeness (s s2 : LRUKReplacer) (now : Nat) (f : Int) (hinv : Inv s)
    (h : s.Evict now = (s2, .ok (some f)) ∨
      ((∃ n, find s.node_store_ f = some n ∧ n.is_evictable_ = true) ∧
        s.Remove f = (s2, .ok ()))) :
    find s2.node_store_ f = none ∧ s2.Size + 1 = s.Size ∧
    (∀ g, g ≠ f → find s2.node_store_ g = find s.node_store_ g) ∧
    ∀ t, find (s2.RecordAccess f t).node_store_ f
      = some { history_ := [t], k_ := s.k_, fid_ := f, is_evictable_ := false } := by
  have key : ∃ n, find s.node_store_ f = some n ∧ n.is_evictable_ = true ∧
      s2 = { s with node_store_ := erase s.node_store_ f,
                    curr_size_ := size_t_dec s.curr_size_ } := by
    rcases h with h | ⟨⟨n, hf, hev⟩, h⟩
    · have h2 : (s.Evict now).2 = .ok (some f) := by rw [h]
      obtain ⟨_, c, hc, hcf, hcev, _, hfst⟩ := Evict_returns s now f h2
      have hf : find s.node_store_ f = some c.2 := by
        rw [← hcf]; exact find_of_mem _ hinv.1.1 c hc
      refine ⟨c.2, hf, hcev, ?_⟩
      rw [h, RemoveUnLock_evictable s f c.2 hf hcev] at hfst
      exact hfst
    · refine ⟨n, hf, hev, ?_⟩
      unfold LRUKReplacer.Remove at h
      rw [RemoveUnLock_evictable s f n hf hev] at h
      injection h with h _
      exact h.symm
  obtain ⟨n, hf, hev, hs2⟩ := key
  have hnone : find s2.node_store_ f = none := by
    rw [hs2]
    simp only
    rw [find_erase, if_pos rfl]
  have hk : s2.k_ = s.k_ := by rw [hs2]
  refine ⟨hnone, ?_, ?_, ?_⟩
  · obtain ⟨h1, h2⟩ := Accounting_pos_of_find s hinv f n hf hev
    have hsz : s2.curr_size_ = size_t_dec s.curr_size_ := by rw [hs2]
    have hdec := size_t_dec_eq s.curr_size_ h1 h2
    rw [Size_eq, Size_eq, hsz]
    omega
  · intro g hg
    rw [hs2]
    simp only
    rw [find_erase, if_neg hg]
  · intro t
    rw [RecordAccess_fresh s2 f t hnone, hk]

/-- Witness of C9 on scenario A of the spec: `Evict` at time 10 returns frame 2,
and `Remove(1)` succeeds on the evictable frame 1; in both cases the frame is
gone, `Size()` drops from 2 to 1, and a new access starts from `[t]`. -/
theorem removal_completeness_witness :
    Inv scenarioA ∧
    scenarioA.Evict 10 = ((scenarioA.Evict 10).1, .ok (some 2)) ∧
    (find (scenarioA.Evict 10).1.node_store_ 2 = none ∧
      (scenarioA.Evict 10).1.Size + 1 = scenarioA.Size ∧
      (∀ g, g ≠ 2 → find (scenarioA.Evict 10).1.node_store_ g = find scenarioA.node_store_ g) ∧
      ∀ t, find ((scenarioA.Evict 10).1.RecordAccess 2 t).node_store_ 2
        = some { history_ := [t], k_ := scenarioA.k_, fid_ := 2, is_evictable_ := false }) ∧
    (find (scenarioA.Remove 1).1.node_store_ 1 = none ∧
      (scenarioA.Remove 1).1.Size + 1 = scenarioA.Size ∧
      (∀ g, g ≠ 1 → find (scenarioA.Remove 1).1.node_store_ g = find scenarioA.node_store_ g) ∧
      ∀ t, find ((scenarioA.Remove 1).1.RecordAccess 1 t).node_store_ 1
        = some { history_ := [t], k_ := scenarioA.k_, fid_ := 1, is_evictable_ := false }) :=
  have hinv : Inv scenarioA :=
    ⟨by simp [WellFormed, UniqueKeys, scenarioA, isFrameId],
      by simp [Accounting, countEvictable, scenarioA]⟩
  ⟨hinv, rfl,
    removal_completeness scenarioA (scenarioA.Evict 10).1 10 2 hinv (Or.inl rfl),
    removal_completeness scenarioA (scenarioA.Remove 1).1 10 1 hinv
      (Or.inr ⟨⟨⟨[1, 2], 2, 1, true⟩, rfl, rfl⟩, rfl⟩)⟩

/-! ## C10: SetEvictable on a known frame -/

/-- C10: in a state satisfying the state invariant, for every known frame id,
`SetEvictable(id, flag)` leaves the node with its flag equal to `flag` and its
other members (the history among them) as they were, changes `Size()` by
exactly -1 when the node was evictable and `flag` is false, by exactly +1 when
it was not evictable and `flag` is true, and by 0 when the flag already had
that value, and changes no other node. -/
theorem SetEvictable_known_frame (s : LRUKReplacer) (frame_id : Int) (flag : Bool)
    (n : LRUKNode) (hinv : Inv s) (hf : find s.node_store_ frame_id = some n) :
    find (s.SetEvictable frame_id flag).node_store_ frame_id
      = some { n with is_evictable_ := flag } ∧
    (n.is_evictable_ = true → flag = false →
      (s.SetEvictable frame_id flag).Size + 1 = s.Size) ∧
    (n.is_evictable_ = false → flag = true →
      (s.SetEvictable frame_id flag).Size = s.Size + 1) ∧
    (n.is_evictable_ = flag → (s.SetEvictable frame_id flag).Size = s.Size) ∧
    (∀ g, g ≠ frame_id →
      find (s.SetEvictable frame_id flag).node_store_ g = find s.node_store_ g) := by
  have hle := countEvictable_le s hinv.1
  have hacc := hinv.2
  unfold Accounting at hacc
  by_cases hsame : n.is_evictable_ = flag
  · rw [SetEvictable_same s frame_id flag n hf hsame]
    refine ⟨?_, ?_, ?_, fun _ => rfl, fun _ _ => rfl⟩
    · rw [hf, ← hsame]
    · intro h1 h2; rw [h1, h2] at hsame; cases hsame
    · intro h1 h2; rw [h1, h2] at hsame; cases hsame
  · cases flag with
    | true =>
      have hn : n.is_evictable_ = false := by
        rcases Bool.eq_false_or_eq_true n.is_evictable_ with hh | hh
        · exact absurd hh hsame
        · exact hh
      have hst := SetEvictable_true s frame_id n hf hn
      have hsz : (s.SetEvictable frame_id true).curr_size_ = size_t_inc s.curr_size_ := by
        rw [hst]
      have hstore : (s.SetEvictable frame_id true).node_store_
          = modify s.node_store_ frame_id (fun m => m.SetEvictable true) := by
        rw [hst]
      refine ⟨?_, ?_, ?_, ?_, ?_⟩
      · rw [hstore, find_modify, if_pos rfl, hf]; rfl
      · intro h1; rw [hn] at h1; cases h1
      · intro _ _
        have hinc := size_t_inc_eq s.curr_size_ (by omega)
        rw [Size_eq, Size_eq, hsz]
        exact hinc
      · intro h1; exact absurd h1 hsame
      · intro g hg
        rw [hstore, find_modify, if_neg hg]
    | false =>
      have hn : n.is_evictable_ = true := by
        rcases Bool.eq_false_or_eq_true n.is_evictable_ with hh | hh
        · exact hh
        · exact absurd hh hsame
      have hst := SetEvictable_false s frame_id n hf hn
      have hsz : (s.SetEvictable frame_id false).curr_size_ = size_t_dec s.curr_size_ := by
        rw [hst]
      have hstore : (s.SetEvictable frame_id false).node_store_
          = modify s.node_store_ frame_id (fun m => m.SetEvictable false) := by
        rw [hst]
      obtain ⟨h1, h2⟩ := Accounting_pos_of_find s hinv frame_id n hf hn
      refine ⟨?_, ?_, ?_, ?_, ?_⟩
      · rw [hstore, find_modify, if_pos rfl, hf]; rfl
      · intro _ _
        have hdec := size_t_dec_eq s.curr_size_ h1 h2
        rw [Size_eq, Size_eq, hsz]
        exact hdec
      · intro _ h3; cases h3
      · intro h3; exact absurd h3 hsame
      · intro g hg
        rw [hstore, find_modify, if_neg hg]

/-- Witness of C10: marking the pinned frame 1 evictable sets its flag, keeps
its history, and raises `Size()` from 0 to 1. -/
theorem SetEvictable_known_frame_witness :
    (Inv statePinned ∧ find statePinned.node_store_ 1 = some ⟨[1], 2, 1, false⟩) ∧
    (statePinned.SetEvictable 1 true).Size = 1 ∧
    (find (statePinned.SetEvictable 1 true).node_store_ 1
        = some { (⟨[1], 2, 1, false⟩ : LRUKNode) with is_evictable_ := true } ∧
      ((⟨[1], 2, 1, false⟩ : LRUKNode).is_evictable_ = true → true = false →
        (statePinned.SetEvictable 1 true).Size + 1 = statePinned.Size) ∧
      ((⟨[1], 2, 1, false⟩ : LRUKNode).is_evictable_ = false → true = true →
        (statePinned.SetEvictable 1 true).Size = statePinned.Size + 1) ∧
      ((⟨[1], 2, 1, false⟩ : LRUKNode).is_evictable_ = true →
        (statePinned.SetEvictable 1 true).Size = statePinned.Size) ∧
      (∀ g, g ≠ 1 →
        find (statePinned.SetEvictable 1 true).node_store_ g = find statePinned.node_store_ g)) :=
  have hinv : Inv statePinned :=
    ⟨by simp [WellFormed, UniqueKeys, statePinned, isFrameId],
      by simp [Accounting, countEvictable, statePinned]⟩
  ⟨⟨hinv, rfl⟩, by decide,
    SetEvictable_known_frame statePinned 1 true ⟨[1], 2, 1, false⟩ hinv rfl⟩

/-! ## C11: SetEvictable on an unknown frame -/

/-- C11: for every frame id that is not in the node store, `SetEvictable(id,
flag)` with either flag value is a no-op: the call returns normally (it has no
throwing path) with the whole state, node store and `Size()` included, as it
was, so no node is created. -/
theorem SetEvictable_unknown_frame (s : LRUKReplacer) (frame_id : Int) (flag : Bool)
    (hf : find s.node_store_ frame_id = none) :
    s.SetEvictable frame_id flag = s ∧
    find (s.SetEvictable frame_id flag).node_store_ frame_id = none ∧
    (s.SetEvictable frame_id flag).Size = s.Size := by
  have h : s.SetEvictable frame_id flag = s := by
    unfold LRUKReplacer.SetEvictable
    rw [hf]
  rw [h]
  exact ⟨rfl, hf, rfl⟩

/-- Witness of C11, scenario C of the spec: `SetEvictable(2, false)` on a fresh
replacer. -/
theorem SetEvictable_unknown_frame_witness :
    find (LRUKReplacer.new 5 2).node_store_ 2 = none ∧
    ((LRUKReplacer.new 5 2).SetEvictable 2 false = LRUKReplacer.new 5 2 ∧
      find ((LRUKReplacer.new 5 2).SetEvictable 2 false).node_store_ 2 = none ∧
      ((LRUKReplacer.new 5 2).SetEvictable 2 false).Size = (LRUKReplacer.new 5 2).Size) :=
  ⟨rfl, SetEvictable_unknown_frame (LRUKReplacer.new 5 2) 2 false rfl⟩

/-! ## C12: SetEvictable is idempotent -/

/-- C12: for every state, frame id and flag value, calling `SetEvictable(id,
flag)` twice in a row yields exactly the state (node store and `Size()`) that
one call yields; in particular `SetEvictable(id, true)` twice does not count
the frame twice. -/
theorem SetEvictable_idempotent (s : LRUKReplacer) (frame_id : Int) (flag : Bool) :
    (s.SetEvictable frame_id flag).SetEvictable frame_id flag = s.SetEvictable frame_id flag := by
  cases hf : find s.node_store_ frame_id with
  | none =>
    rw [SetEvictable_unknown s frame_id flag hf, SetEvictable_unknown s frame_id flag hf]
  | some n =>
    by_cases hsame : n.is_evictable_ = flag
    · rw [SetEvictable_same s frame_id flag n hf hsame, SetEvictable_same s frame_id flag n hf hsame]
    · have hfind : find (s.SetEvictable frame_id flag).node_store_ frame_id
          = some (n.SetEvictable flag) := by
        cases flag with
        | true =>
          have hn : n.is_evictable_ = false := by
            rcases Bool.eq_false_or_eq_true n.is_evictable_ with hh | hh
            · exact absurd hh hsame
            · exact hh
          rw [SetEvictable_true s frame_id n hf hn]
          simp only
          rw [find_modify, if_pos rfl, hf]
          rfl
        | false =>
          have hn : n.is_evictable_ = true := by
            rcases Bool.eq_false_or_eq_true n.is_evictable_ with hh | hh
            · exact hh
            · exact absurd hh hsame
          rw [SetEvictable_false s frame_id n hf hn]
          simp only
          rw [find_modify, if_pos rfl, hf]
          rfl
      exact SetEvictable_same (s.SetEvictable frame_id flag) frame_id flag
        (n.SetEvictable flag) hfind rfl

/-! ## C16: effect of RecordAccess -/

/-- C16: `RecordAccess(id)` at time `t` on an id not in the node store creates
a node that is not evictable and whose history is exactly `[t]`; on an id in
the node store it records `t` into the window of that node (dropping the
oldest entry of a full window) without changing its evictable flag; in both
cases `Size()` and every other node are unchanged. -/
theorem RecordAccess_effect (s : LRUKReplacer) (frame_id : Int) (t : Nat) :
    (find s.node_store_ frame_id = none →
      find (s.RecordAccess frame_id t).node_store_ frame_id
        = some { history_ := [t], k_ := s.k_, fid_ := frame_id, is_evictable_ := false }) ∧
    (∀ n, find s.node_store_ frame_id = some n →
      find (s.RecordAccess frame_id t).node_store_ frame_id = some (n.RecordAccessTime t) ∧
      (n.RecordAccessTime t).is_evictable_ = n.is_evictable_ ∧
      (n.RecordAccessTime t).history_
        = (if n.history_.length ≥ n.k_ then n.history_.tail else n.history_) ++ [t]) ∧
    (s.RecordAccess frame_id t).Size = s.Size ∧
    (∀ g, g ≠ frame_id →
      find (s.RecordAccess frame_id t).node_store_ g = find s.node_store_ g) := by
  refine ⟨RecordAccess_fresh s frame_id t, ?_, rfl, ?_⟩
  · intro n hf
    refine ⟨?_, rfl, rfl⟩
    unfold LRUKReplacer.RecordAccess
    rw [hf]
    simp only
    rw [find_modify, if_pos rfl, hf]
    rfl
  · intro g hg
    unfold LRUKReplacer.RecordAccess
    cases hf : find s.node_store_ frame_id with
    | some n =>
      simp only
      rw [find_modify, if_neg hg]
    | none =>
      simp only
      rw [find_modify, if_neg hg, find_emplace]
      cases hfg : find s.node_store_ g with
      | some m => rfl
      | none =>
        simp only
        rw [if_neg (fun h => hg h.symm)]

/-! ## C17: Evict does not throw -/

/-- C17: for every well-formed state satisfying the accounting invariant,
`Evict` never throws: either it returns none and leaves the state as it was,
or the frame it hands to `RemoveUnLock` is stored and evictable, the call
returns that frame, and the evictable count, which was at least one, goes down
by exactly one without wrapping below zero. -/
theorem Evict_never_throws (s : LRUKReplacer) (now : Nat) (hinv : Inv s) :
    (∀ msg, (s.Evict now).2 ≠ .error msg) ∧
    (s.Evict now = (s, .ok none) ∨
      ∃ f n, (s.Evict now).2 = .ok (some f) ∧ find s.node_store_ f = some n ∧
        n.is_evictable_ = true ∧ (s.RemoveUnLock f).2 = .ok () ∧
        1 ≤ s.curr_size_ ∧ (s.Evict now).1.curr_size_ + 1 = s.curr_size_) := by
  by_cases hex : ∃ e ∈ s.node_store_, e.2.is_evictable_ = true
  · have h0 := Accounting_curr_size_ne_zero s hinv.2 hex
    obtain ⟨c, hc, hcev, _, hE⟩ := Evict_some s now hinv.1.1 h0 hex
    have hf := find_of_mem _ hinv.1.1 c hc
    obtain ⟨h1, h2⟩ := Accounting_pos_of_find s hinv c.1 c.2 hf hcev
    have hdec := size_t_dec_eq s.curr_size_ h1 h2
    have hsz : (s.Evict now).1.curr_size_ = size_t_dec s.curr_size_ := by rw [hE]
    refine ⟨?_, Or.inr ⟨c.1, c.2, by rw [hE], hf, hcev, ?_, h1, ?_⟩⟩
    · intro msg h
      rw [hE] at h
      cases h
    · rw [RemoveUnLock_evictable s c.1 c.2 hf hcev]
    · rw [hsz]
      exact hdec
  · have hnone : ∀ e ∈ s.node_store_, e.2.is_evictable_ = false := by
      intro e he
      rcases Bool.eq_false_or_eq_true e.2.is_evictable_ with hh | hh
      · exact absurd ⟨e, he, hh⟩ hex
      · exact hh
    have hE := Evict_none s now (Or.inr hnone)
    refine ⟨?_, Or.inl hE⟩
    intro msg h
    rw [hE] at h
    cases h

/-- Witness of C17 on scenario A of the spec at time 10. -/
theorem Evict_never_throws_witness :
    Inv scenarioA ∧
    ((∀ msg, (scenarioA.Evict 10).2 ≠ .error msg) ∧
      (scenarioA.Evict 10 = (scenarioA, .ok none) ∨
        ∃ f n, (scenarioA.Evict 10).2 = .ok (some f) ∧ find scenarioA.node_store_ f = some n ∧
          n.is_evictable_ = true ∧ (scenarioA.RemoveUnLock f).2 = .ok () ∧
          1 ≤ scenarioA.curr_size_ ∧ (scenarioA.Evict 10).1.curr_size_ + 1 = scenarioA.curr_size_)) :=
  have hinv : Inv scenarioA :=
    ⟨by simp [WellFormed, UniqueKeys, scenarioA, isFrameId],
      by simp [Accounting, countEvictable, scenarioA]⟩
  ⟨hinv, Evict_never_throws scenarioA 10 hinv⟩

/-! ## The victim is the entry the scan order puts first -/

/-- If one evictable entry is strictly first in the scan order, `Evict` erases
it and returns its frame id, whatever the order of the node store. -/
theorem Evict_of_best (s : LRUKReplacer) (now : Nat) (target : Int × LRUKNode)
    (hu : UniqueKeys s.node_store_) (h0 : s.curr_size_ ≠ 0)
    (hmem : target ∈ s.node_store_) (hev : target.2.is_evictable_ = true)
    (hbest : ∀ e ∈ s.node_store_, e.2.is_evictable_ = true →
      Preferred now target.2 e.2 → e = target) :
    s.Evict now =
      ({ s with node_store_ := erase s.node_store_ target.1,
                curr_size_ := size_t_dec s.curr_size_ }, .ok (some target.1)) := by
  obtain ⟨c, hc, hcev, hpref, hE⟩ := Evict_some s now hu h0 ⟨target, hmem, hev⟩
  have hct : c = target := hbest c hc hcev (hpref target hmem hev)
  rw [hct] at hE
  exact hE

theorem UniqueKeys_perm (l1 l2 : List (Int × LRUKNode)) (hperm : List.Perm l1 l2)
    (hu : UniqueKeys l2) : UniqueKeys l1 := by
  unfold UniqueKeys at *
  exact (List.Perm.nodup_iff (List.Perm.map Prod.fst hperm)).2 hu

/-! ## C14: tie-break among frames with fewer than k accesses -/

/-- C14 (the code at the failing input): with `k = 3`, frame 1 accessed at
times 1 and 10 and frame 2 at times 2 and 3, both evictable, both frames have
fewer than `k` accesses and distance `INF`, and the oldest timestamp of frame 1
is further in the past than that of frame 2; `Evict` at time 11 nevertheless
returns frame 2, in either scan order, because it compares last access
times. -/
theorem Evict_ignores_oldest_timestamp :
    run (LRUKReplacer.new 5 3)
      [.recordAccess 1 1, .recordAccess 2 2, .recordAccess 2 3, .recordAccess 1 10,
       .setEvictable 1 true, .setEvictable 2 true] = stateOldestVsLast ∧
    stateOldestVsLast.node_store_.map
        (fun e => (e.1, LRUKReplacer.kDistance 11 e.2, e.2.history_.headD 0,
          e.2.GetLastAccessTime))
      = [(1, INF, 1, 10), (2, INF, 2, 3)] ∧
    (stateOldestVsLast.Evict 11).2 = .ok (some 2) ∧
    (LRUKReplacer.Evict
      { stateOldestVsLast with node_store_ := stateOldestVsLast.node_store_.reverse } 11).2
        = .ok (some 2) := by
  refine ⟨by decide, by decide, rfl, rfl⟩

/-! ## C18: the victim does not depend on the scan order -/

/-- For any two enumeration orders of the same node store (a map, so with
distinct frame ids) and the same current time, `Evict` returns the same result,
provided no two evictable nodes have both the same distance as the scan
computes it and the same last access time. -/
theorem Evict_order_independent_of_scan_distance (s : LRUKReplacer)
    (store2 : List (Int × LRUKNode))
    (now : Nat) (hu : UniqueKeys s.node_store_) (hperm : List.Perm store2 s.node_store_)
    (hno : ∀ e1 ∈ s.node_store_, ∀ e2 ∈ s.node_store_,
      e1.2.is_evictable_ = true → e2.2.is_evictable_ = true →
      LRUKReplacer.kDistance now e1.2 = LRUKReplacer.kDistance now e2.2 →
      e1.2.GetLastAccessTime = e2.2.GetLastAccessTime → e1 = e2) :
    (LRUKReplacer.Evict { s with node_store_ := store2 } now).2 = (s.Evict now).2 := by
  by_cases h0 : s.curr_size_ = 0
  · rw [Evict_none s now (Or.inl h0),
      Evict_none { s with node_store_ := store2 } now (Or.inl h0)]
  · by_cases hex : ∃ e ∈ s.node_store_, e.2.is_evictable_ = true
    · obtain ⟨c, hc, hcev, hpref, hE⟩ := Evict_some s now hu h0 hex
      have hE2 := Evict_of_best { s with node_store_ := store2 } now c
        (UniqueKeys_perm _ _ hperm hu) h0 ((List.Perm.mem_iff hperm).2 hc) hcev
        (by
          intro e he heev hp
          have he1 : e ∈ s.node_store_ := (List.Perm.mem_iff hperm).1 he
          have hp2 := hpref e he1 heev
          unfold Preferred at hp hp2
          exact hno e he1 c hc heev hcev (by omega) (by omega))
      rw [hE, hE2]
    · have hnone : ∀ e ∈ s.node_store_, e.2.is_evictable_ = false := by
        intro e he
        rcases Bool.eq_false_or_eq_true e.2.is_evictable_ with hh | hh
        · exact absurd ⟨e, he, hh⟩ hex
        · exact hh
      have hnone2 : ∀ e ∈ store2, e.2.is_evictable_ = false :=
        fun e he => hnone e ((List.Perm.mem_iff hperm).1 he)
      rw [Evict_none s now (Or.inr hnone),
        Evict_none { s with node_store_ := store2 } now (Or.inr hnone2)]

/-- C18 (amended): for any two enumeration orders of the same node store (a
map with distinct frame ids whose nodes carry the replacer's `k`) and the same
current time, smaller than `INF` and not smaller than any stored timestamp,
`Evict` returns the same frame, provided no two evictable nodes have both the
same backward k-distance (`INF` when the history has fewer than `k` entries,
otherwise now minus the oldest timestamp of the window) and the same last
access time. -/
theorem Evict_order_independent (s : LRUKReplacer) (store2 : List (Int × LRUKNode))
    (now : Nat) (hwf : WellFormed s) (hperm : List.Perm store2 s.node_store_)
    (htime : TimesUpTo now s.node_store_) (hnow : now < INF)
    (hno : ∀ e1 ∈ s.node_store_, ∀ e2 ∈ s.node_store_,
      e1.2.is_evictable_ = true → e2.2.is_evictable_ = true →
      backwardKDistance s.k_ now e1.2 = backwardKDistance s.k_ now e2.2 →
      e1.2.GetLastAccessTime = e2.2.GetLastAccessTime → e1 = e2) :
    (LRUKReplacer.Evict { s with node_store_ := store2 } now).2 = (s.Evict now).2 := by
  have hkd : ∀ e ∈ s.node_store_,
      LRUKReplacer.kDistance now e.2 = backwardKDistance s.k_ now e.2 := fun e he =>
    kDistance_eq_backwardKDistance s.k_ now e.2 (hwf.2 e he).2 (htime e he) hnow
  apply Evict_order_independent_of_scan_distance s store2 now hwf.1 hperm
  intro e1 he1 e2 he2 hev1 hev2 hdist hlast
  rw [hkd e1 he1, hkd e2 he2] at hdist
  exact hno e1 he1 e2 he2 hev1 hev2 hdist hlast

/-- Witness of C18: three frames with one access each, scanned in the stored
order and in the reverse order at time 10; both scans evict frame 2. -/
theorem Evict_order_independent_witness :
    (WellFormed stateUnderfull ∧
      List.Perm stateUnderfull.node_store_.reverse stateUnderfull.node_store_ ∧
      TimesUpTo 10 stateUnderfull.node_store_ ∧ 10 < INF) ∧
    (LRUKReplacer.Evict
      { stateUnderfull with node_store_ := stateUnderfull.node_store_.reverse } 10).2
        = (stateUnderfull.Evict 10).2 ∧
    (stateUnderfull.Evict 10).2 = .ok (some 2) :=
  have hwf : WellFormed stateUnderfull := by
    simp [WellFormed, UniqueKeys, stateUnderfull, isFrameId]
  have hperm : List.Perm stateUnderfull.node_store_.reverse stateUnderfull.node_store_ :=
    List.reverse_perm _
  have htime : TimesUpTo 10 stateUnderfull.node_store_ := by
    simp [TimesUpTo, stateUnderfull]
  have hnow : 10 < INF := by decide
  ⟨⟨hwf, hperm, htime, hnow⟩,
    Evict_order_independent stateUnderfull stateUnderfull.node_store_.reverse 10 hwf hperm
      htime hnow (by decide),
    rfl⟩

/-- C18 as stated fails where the scan takes a full window for an unbounded
one.  With `k = 2`, frame 1 accessed twice at `INF`, frame 2 once at `INF` and
the clock at `INF`, the backward k-distances are 0 and `INF`, so no two
evictable nodes tie, yet the stored order returns frame 1 and the reverse order
frame 2.  The same happens at clock 4 for frame 1 accessed at 5 and 7 and frame
2 at 7, where `4 - 5` wraps to `INF`. -/
theorem Evict_order_independent_fails_at_sentinel :
    (run (LRUKReplacer.new 5 2)
        [.recordAccess 1 INF, .recordAccess 1 INF, .recordAccess 2 INF, .setEvictable 1 true,
         .setEvictable 2 true] = stateSentinelOrder ∧
      WellFormed stateSentinelOrder ∧ Accounting stateSentinelOrder ∧
      List.Perm stateSentinelOrder.node_store_.reverse stateSentinelOrder.node_store_ ∧
      TimesUpTo INF stateSentinelOrder.node_store_ ∧
      stateSentinelOrder.node_store_.map
          (fun e => (e.1, backwardKDistance 2 INF e.2, e.2.GetLastAccessTime))
        = [(1, 0, INF), (2, INF, INF)] ∧
      ∀ e1 ∈ stateSentinelOrder.node_store_, ∀ e2 ∈ stateSentinelOrder.node_store_,
        e1.2.is_evictable_ = true → e2.2.is_evictable_ = true →
        backwardKDistance stateSentinelOrder.k_ INF e1.2
          = backwardKDistance stateSentinelOrder.k_ INF e2.2 →
        e1.2.GetLastAccessTime = e2.2.GetLastAccessTime → e1 = e2) ∧
    (stateSentinelOrder.Evict INF).2 = .ok (some 1) ∧
    (LRUKReplacer.Evict
      { stateSentinelOrder with node_store_ := stateSentinelOrder.node_store_.reverse } INF).2
        = .ok (some 2) ∧
    (LRUKReplacer.Evict
      { stateSentinelOrder with node_store_ := stateSentinelOrder.node_store_.reverse } INF).2
        ≠ (stateSentinelOrder.Evict INF).2 ∧
    (stateClockStepsBack.node_store_.map
        (fun e => (e.1, backwardKDistance 2 4 e.2, e.2.GetLastAccessTime))
      = [(1, 0, 7), (2, INF, 7)] ∧
      (stateClockStepsBack.Evict 4).2 = .ok (some 1) ∧
      (LRUKReplacer.Evict
        { stateClockStepsBack with node_store_ := stateClockStepsBack.node_store_.reverse } 4).2
          = .ok (some 2)) := by
  refine ⟨⟨by decide, ?_, ?_, List.reverse_perm _, ?_, by decide, by decide⟩, rfl, rfl, ?_,
    by decide, rfl, rfl⟩
  · simp [WellFormed, UniqueKeys, stateSentinelOrder, isFrameId]
  · simp [Accounting, countEvictable, stateSentinelOrder]
  · simp [TimesUpTo, stateSentinelOrder, INF]
  · intro h
    have h1 : (stateSentinelOrder.Evict INF).2 = .ok (some 1) := rfl
    have h2 : (LRUKReplacer.Evict
        { stateSentinelOrder with node_store_ := stateSentinelOrder.node_store_.reverse }
        INF).2 = .ok (some 2) := rfl
    rw [h1, h2] at h
    injection h with h
    injection h with h
    exact absurd h (by decide)

/-! ## C13: scenario B -/

theorem kDistance_single (now i : Nat) (fid : Int) (b : Bool) (hi : i ≤ now)
    (hnow : now < SIZE_MOD) (hne : i ≠ INF) :
    LRUKReplacer.kDistance now ⟨[i], 1, fid, b⟩ = now - i := by
  unfold LRUKReplacer.kDistance LRUKNode.GetOldestAccessTime
  simp only [List.length_singleton, ge_iff_le, le_refl, if_true, List.headD_cons, if_neg hne]
  unfold size_t_sub
  unfold SIZE_MOD at hnow ⊢
  omega

/-- In a replacer with `k = 1` whose nodes are all evictable, with one access
each at a time between `i` and 3, the only node accessed at time `i` is evicted
at any clock reading from 3 on. -/
theorem Evict_scenarioB_step (store : List (Int × LRUKNode)) (size t i : Nat) (fid : Int)
    (hu : UniqueKeys store) (hsize : size ≠ 0)
    (hmem : (fid, ⟨[i], 1, fid, true⟩) ∈ store)
    (hall : ∀ e ∈ store, ∃ j, e.2 = ⟨[j], 1, e.1, true⟩ ∧ i ≤ j ∧ j ≤ 3 ∧ (j = i → e.1 = fid))
    (ht : 3 ≤ t) (ht2 : t < SIZE_MOD) :
    (scenarioBWith store size).Evict t
      = (scenarioBWith (erase store fid) (size_t_dec size), .ok (some fid)) := by
  have hi3 : i ≤ 3 := by
    obtain ⟨j, _, h1, h2, _⟩ := hall _ hmem
    omega
  refine Evict_of_best (scenarioBWith store size) t (fid, ⟨[i], 1, fid, true⟩) hu hsize hmem rfl ?_
  intro e he _ hp
  obtain ⟨j, hej, hij, hj3, hfid⟩ := hall e he
  unfold Preferred at hp
  simp only at hp
  rw [hej, kDistance_single t i fid true (by omega) ht2 (by unfold INF; omega),
    kDistance_single t j e.1 true (by omega) ht2 (by unfold INF; omega)] at hp
  have hji : j = i := by omega
  have h1 := hfid hji
  rw [hji, h1] at hej
  rcases e with ⟨e1, e2⟩
  simp only at hej h1
  rw [hej, h1]

theorem run_callsScenarioB : run (LRUKReplacer.new 3 1) callsScenarioB = scenarioB := by
  decide

/-- C13, scenario B of the spec: on a replacer constructed with `k = 1` and
capacity 3, after `RecordAccess` of frames 1, 2, 3 at timestamps 1, 2, 3 and
marking all three evictable, four successive `Evict` calls at any clock
readings from 3 on return 1, then 2, then 3, then none, in whatever order the
node store is scanned. -/
theorem scenarioB_evictions (store : List (Int × LRUKNode)) (t1 t2 t3 t4 : Nat)
    (hperm : List.Perm store (run (LRUKReplacer.new 3 1) callsScenarioB).node_store_)
    (h1 : 3 ≤ t1 ∧ t1 < SIZE_MOD) (h2 : 3 ≤ t2 ∧ t2 < SIZE_MOD)
    (h3 : 3 ≤ t3 ∧ t3 < SIZE_MOD) (_h4 : 3 ≤ t4 ∧ t4 < SIZE_MOD) :
    evictSuccessively
        { run (LRUKReplacer.new 3 1) callsScenarioB with node_store_ := store }
        [t1, t2, t3, t4]
      = [.ok (some 1), .ok (some 2), .ok (some 3), .ok none] := by
  rw [run_callsScenarioB] at hperm ⊢
  have hstate : ({ scenarioB with node_store_ := store } : LRUKReplacer)
      = scenarioBWith store 3 := rfl
  rw [hstate]
  have hu : UniqueKeys store :=
    UniqueKeys_perm _ _ hperm (by simp [UniqueKeys, scenarioB, scenarioBWith])
  have hmem : ∀ e, e ∈ store ↔
      e = (1, ⟨[1], 1, 1, true⟩) ∨ e = (2, ⟨[2], 1, 2, true⟩) ∨ e = (3, ⟨[3], 1, 3, true⟩) := by
    intro e
    rw [List.Perm.mem_iff hperm]
    simp [scenarioB, scenarioBWith]
  have hmem1 : ∀ e, e ∈ erase store 1 ↔
      e = (2, ⟨[2], 1, 2, true⟩) ∨ e = (3, ⟨[3], 1, 3, true⟩) := by
    intro e
    unfold erase
    rw [List.mem_filter, hmem]
    constructor
    · rintro ⟨h | h | h, hne⟩
      · rw [h] at hne; simp at hne
      · exact Or.inl h
      · exact Or.inr h
    · rintro (h | h)
      · exact ⟨Or.inr (Or.inl h), by rw [h]; simp⟩
      · exact ⟨Or.inr (Or.inr h), by rw [h]; simp⟩
  have hmem2 : ∀ e, e ∈ erase (erase store 1) 2 ↔ e = (3, ⟨[3], 1, 3, true⟩) := by
    intro e
    unfold erase at hmem1 ⊢
    rw [List.mem_filter, hmem1]
    constructor
    · rintro ⟨h | h, hne⟩
      · rw [h] at hne; simp at hne
      · exact h
    · intro h
      exact ⟨Or.inr h, by rw [h]; simp⟩
  have hu1 := UniqueKeys_erase store 1 hu
  have hu2 := UniqueKeys_erase (erase store 1) 2 hu1
  have e1 := Evict_scenarioB_step store 3 t1 1 1 hu (by decide) ((hmem _).2 (Or.inl rfl))
    (by
      intro e he
      rcases (hmem e).1 he with h | h | h
      · exact ⟨1, by rw [h], by decide, by decide, fun _ => by rw [h]⟩
      · exact ⟨2, by rw [h], by decide, by decide, fun h' => by cases h'⟩
      · exact ⟨3, by rw [h], by decide, by decide, fun h' => by cases h'⟩)
    h1.1 h1.2
  have e2 := Evict_scenarioB_step (erase store 1) (size_t_dec 3) t2 2 2 hu1 (by decide)
    ((hmem1 _).2 (Or.inl rfl))
    (by
      intro e he
      rcases (hmem1 e).1 he with h | h
      · exact ⟨2, by rw [h], by decide, by decide, fun _ => by rw [h]⟩
      · exact ⟨3, by rw [h], by decide, by decide, fun h' => by cases h'⟩)
    h2.1 h2.2
  have e3 := Evict_scenarioB_step (erase (erase store 1) 2) (size_t_dec (size_t_dec 3)) t3 3 3
    hu2 (by decide) ((hmem2 _).2 rfl)
    (by
      intro e he
      have h := (hmem2 e).1 he
      exact ⟨3, by rw [h], by decide, by decide, fun _ => by rw [h]⟩)
    h3.1 h3.2
  have e4 := Evict_none
    (scenarioBWith (erase (erase (erase store 1) 2) 3) (size_t_dec (size_t_dec (size_t_dec 3))))
    t4 (Or.inl (show size_t_dec (size_t_dec (size_t_dec 3)) = 0 by decide))
  simp only [evictSuccessively, e1, e2, e3, e4]

/-- Witness of C13: the four evictions at times 4, 5, 6, 7 in the stored order. -/
theorem scenarioB_evictions_witness :
    (List.Perm (run (LRUKReplacer.new 3 1) callsScenarioB).node_store_
        (run (LRUKReplacer.new 3 1) callsScenarioB).node_store_ ∧
      (3 ≤ 4 ∧ 4 < SIZE_MOD) ∧ (3 ≤ 5 ∧ 5 < SIZE_MOD) ∧ (3 ≤ 6 ∧ 6 < SIZE_MOD) ∧
      (3 ≤ 7 ∧ 7 < SIZE_MOD)) ∧
    evictSuccessively
        { run (LRUKReplacer.new 3 1) callsScenarioB with
          node_store_ := (run (LRUKReplacer.new 3 1) callsScenarioB).node_store_ }
        [4, 5, 6, 7]
      = [.ok (some 1), .ok (some 2), .ok (some 3), .ok none] ∧
    evictSuccessively (run (LRUKReplacer.new 3 1) callsScenarioB) [4, 5, 6, 7]
      = [.ok (some 1), .ok (some 2), .ok (some 3), .ok none] :=
  ⟨⟨List.Perm.refl _, by decide, by decide, by decide, by decide⟩,
    scenarioB_evictions (run (LRUKReplacer.new 3 1) callsScenarioB).node_store_ 4 5 6 7
      (List.Perm.refl _) (by decide) (by decide) (by decide) (by decide),
    rfl⟩

/-! ## C19: HyperLogLog, position of the leftmost one -/

/-- The loop over the bits below `n ≤ 64` returns, never throws, and counts the
positions from bit `n - 1` down to the first set bit, or all `n` of them. -/
theorem positionLoop_spec (bset n : Nat) (hn : n ≤ BITSET_CAPACITY) (p : Nat) :
    ∃ r, positionLoop bset n p = .ok r ∧ r ≤ p + n ∧ (0 < n → p + 1 ≤ r) ∧
      ((∀ j, j < n → bset.testBit j = false) → r = p + n) ∧
      (∀ j, j < n → bset.testBit j = true →
        (∀ j2, j < j2 → j2 < n → bset.testBit j2 = false) → r = p + (n - j)) := by
  induction n generalizing p with
  | zero =>
    exact ⟨p, rfl, by omega, by omega, fun _ => rfl, fun j hj => absurd hj (by omega)⟩
  | succ n ih =>
    have htest : bitsetTest bset n = .ok (bset.testBit n) := by
      unfold bitsetTest
      rw [if_pos (by omega)]
    unfold positionLoop
    rw [htest]
    cases hb : bset.testBit n with
    | true =>
      refine ⟨p + 1, rfl, by omega, by omega, ?_, ?_⟩
      · intro hall
        rw [hall n (by omega)] at hb
        cases hb
      · intro j hj _ hhigh
        by_cases hjn : j = n
        · rw [hjn]; omega
        · rw [hhigh n (by omega) (by omega)] at hb
          cases hb
    | false =>
      obtain ⟨r, h1, h2, h3, h4, h5⟩ := ih (by omega) (p + 1)
      refine ⟨r, h1, by omega, ?_, ?_, ?_⟩
      · intro _
        by_cases hn0 : n = 0
        · have := h4 (fun j hj => absurd hj (by omega))
          omega
        · have := h3 (by omega)
          omega
      · intro hall
        have := h4 (fun j hj => hall j (by omega))
        omega
      · intro j hj hbit hhigh
        have hjn : j ≠ n := by
          intro hjn
          rw [hjn, hb] at hbit
          cases hbit
        have := h5 j (by omega) hbit (fun j2 hlo hhi => hhigh j2 hlo (by omega))
        omega

/-- For `0 ≤ b < 64` the call returns a value between 1 and `64 - b`. -/
theorem PositionOfLeftmostOne_position_aux (h : HyperLogLog) (b : Nat)
    (hb : h.b_ = (b : Int)) (hlt : b < 64) (hash : Nat) :
    ∃ r, h.PositionOfLeftmostOne (HyperLogLog.ComputeBinary hash) = .ok r ∧
      1 ≤ r ∧ r ≤ 64 - b := by
  have hcount : ((BITSET_CAPACITY : Int) - 1 - h.b_ + 1).toNat = 64 - b := by
    rw [hb]
    unfold BITSET_CAPACITY
    omega
  unfold HyperLogLog.PositionOfLeftmostOne
  rw [hcount]
  obtain ⟨r, h1, h2, h3, _, _⟩ :=
    positionLoop_spec (HyperLogLog.ComputeBinary hash) (64 - b)
      (by unfold BITSET_CAPACITY; omega) 0
  have := h3 (by omega)
  exact ⟨r, h1, by omega, by omega⟩

/-- C19: for every 64-bit hash and every number of index bits `b` with
`0 ≤ b < 64`, `PositionOfLeftmostOne` returns the 1-based position, counted
from the most significant of the low `64 - b` bits, of the first set bit among
those bits (bit `j` has position `64 - b - j`), and `64 - b` when none of them
is set; the result lies in `[1, 64 - b]`. -/
theorem PositionOfLeftmostOne_position (h : HyperLogLog) (b : Nat) (hb : h.b_ = (b : Int))
    (hlt : b < 64) (hash : Nat) :
    ∃ r, h.PositionOfLeftmostOne (HyperLogLog.ComputeBinary hash) = .ok r ∧
      1 ≤ r ∧ r ≤ 64 - b ∧
      ((∀ j, j < 64 - b → (HyperLogLog.ComputeBinary hash).testBit j = false) → r = 64 - b) ∧
      (∀ j, j < 64 - b → (HyperLogLog.ComputeBinary hash).testBit j = true →
        (∀ j2, j < j2 → j2 < 64 - b → (HyperLogLog.ComputeBinary hash).testBit j2 = false) →
        r = 64 - b - j) := by
  have hcount : ((BITSET_CAPACITY : Int) - 1 - h.b_ + 1).toNat = 64 - b := by
    rw [hb]
    unfold BITSET_CAPACITY
    omega
  unfold HyperLogLog.PositionOfLeftmostOne
  rw [hcount]
  obtain ⟨r, h1, h2, h3, h4, h5⟩ :=
    positionLoop_spec (HyperLogLog.ComputeBinary hash) (64 - b)
      (by unfold BITSET_CAPACITY; omega) 0
  refine ⟨r, h1, ?_, by omega, ?_, ?_⟩
  · have := h3 (by omega)
    omega
  · intro hall
    have := h4 hall
    omega
  · intro j hj hbit hhigh
    have := h5 j hj hbit hhigh
    omega

/-- Witness of C19 with two index bits: the hash `2 ^ 62 + 2 ^ 60` has its
first set low bit at position 2, and the hash 0 gives 62. -/
theorem PositionOfLeftmostOne_position_witness :
    ((HyperLogLog.new 2).b_ = ((2 : Nat) : Int) ∧ 2 < 64) ∧
    (HyperLogLog.new 2).PositionOfLeftmostOne
        (HyperLogLog.ComputeBinary 5764607523034234880) = .ok 2 ∧
    (HyperLogLog.new 2).PositionOfLeftmostOne (HyperLogLog.ComputeBinary 0) = .ok 62 ∧
    ∃ r, (HyperLogLog.new 2).PositionOfLeftmostOne
        (HyperLogLog.ComputeBinary 5764607523034234880) = .ok r ∧
      1 ≤ r ∧ r ≤ 64 - 2 ∧
      ((∀ j, j < 64 - 2 →
          (HyperLogLog.ComputeBinary 5764607523034234880).testBit j = false) → r = 64 - 2) ∧
      (∀ j, j < 64 - 2 → (HyperLogLog.ComputeBinary 5764607523034234880).testBit j = true →
        (∀ j2, j < j2 → j2 < 64 - 2 →
          (HyperLogLog.ComputeBinary 5764607523034234880).testBit j2 = false) →
        r = 64 - 2 - j) :=
  ⟨⟨rfl, by decide⟩, by rfl, by rfl,
    PositionOfLeftmostOne_position (HyperLogLog.new 2) 2 rfl (by decide) 5764607523034234880⟩

/-! ## C20: HyperLogLog, AddElem -/

theorem getD_set_eq (l : List Int) (i : Nat) (v d : Int) (hi : i < l.length) :
    (l.set i v).getD i d = v := by
  induction l generalizing i with
  | nil => simp at hi
  | cons a rest ih =>
    cases i with
    | zero => simp
    | succ i =>
      simp only [List.set_cons_succ, List.getD_cons_succ]
      exact ih i (by simpa using hi)

theorem getD_set_ne (l : List Int) (i j : Nat) (v d : Int) (hij : j ≠ i) :
    (l.set i v).getD j d = l.getD j d := by
  induction l generalizing i j with
  | nil => simp
  | cons a rest ih =>
    cases i with
    | zero =>
      cases j with
      | zero => exact absurd rfl hij
      | succ j => simp
    | succ i =>
      cases j with
      | zero => simp
      | succ j =>
        simp only [List.set_cons_succ, List.getD_cons_succ]
        exact ih i j (fun h => hij (by rw [h]))

theorem registerIndex_eq (h : HyperLogLog) (b : Nat) (hb : h.b_ = (b : Int)) (hlt : b < 64)
    (hash : Nat) :
    h.registerIndex (HyperLogLog.ComputeBinary hash) = hash % 2 ^ 64 / 2 ^ (64 - b) := by
  unfold HyperLogLog.registerIndex bitsetShiftRight HyperLogLog.ComputeBinary
  rw [hb]
  have hpos : ¬ ((BITSET_CAPACITY : Int) - (b : Int) < 0) := by
    unfold BITSET_CAPACITY
    omega
  have hcount : ((BITSET_CAPACITY : Int) - (b : Int)).toNat = 64 - b := by
    unfold BITSET_CAPACITY
    omega
  rw [if_neg hpos, hcount, Nat.shiftRight_eq_div_pow]
  rfl

theorem registerIndex_lt (h : HyperLogLog) (b : Nat) (hb : h.b_ = (b : Int)) (hlt : b < 64)
    (hash : Nat) : h.registerIndex (HyperLogLog.ComputeBinary hash) < 2 ^ b := by
  rw [registerIndex_eq h b hb hlt hash]
  have hmod : hash % 2 ^ 64 < 2 ^ 64 := Nat.mod_lt _ (by positivity)
  have hsplit : (2 : Nat) ^ 64 = 2 ^ (64 - b) * 2 ^ b := by
    rw [← Nat.pow_add]
    congr 1
    omega
  have hmod2 : hash % 2 ^ 64 < 2 ^ (64 - b) * 2 ^ b := by
    rw [← hsplit]
    exact hmod
  exact Nat.div_lt_of_lt_mul hmod2

theorem AddElem_keeps_shape (h : HyperLogLog) (hash : Nat) :
    (h.AddElem hash).1.b_ = h.b_ ∧
    (h.AddElem hash).1.register_.length = h.register_.length := by
  unfold HyperLogLog.AddElem
  split_ifs
  · exact ⟨rfl, rfl⟩
  · simp only
    cases h.PositionOfLeftmostOne (HyperLogLog.ComputeBinary hash) with
    | error e => exact ⟨rfl, rfl⟩
    | ok p => exact ⟨rfl, List.length_set _ _ _⟩

theorem addAll_keeps_shape (hashes : List Nat) (h : HyperLogLog) :
    (h.addAll hashes).b_ = h.b_ ∧ (h.addAll hashes).register_.length = h.register_.length := by
  induction hashes generalizing h with
  | nil => exact ⟨rfl, rfl⟩
  | cons x rest ih =>
    unfold HyperLogLog.addAll
    rw [List.foldl_cons]
    have h1 := ih (h.AddElem x).1
    unfold HyperLogLog.addAll at h1
    have h2 := AddElem_keeps_shape h x
    exact ⟨h1.1.trans h2.1, h1.2.trans h2.2⟩

theorem new_shape (b : Nat) :
    (HyperLogLog.new b).b_ = (b : Int) ∧ (HyperLogLog.new b).register_.length = 2 ^ b := by
  unfold HyperLogLog.new
  rw [if_pos (by omega)]
  simp

/-- C20: for every number of index bits `b` with `0 ≤ b < 64`, every state `h`
reached from the constructor by `AddElem` calls, and every hash, the register
index (the value of the top `b` bits of the hash) is below the register count
`2 ^ b`, so the access is in bounds; the call returns normally, sets that
register to the maximum of its old value and `PositionOfLeftmostOne` of the
hash, and leaves every other register unchanged, so no register decreases. -/
theorem AddElem_register_update (b : Nat) (hlt : b < 64) (hashes : List Nat)
    (h : HyperLogLog) (hh : h = HyperLogLog.addAll (HyperLogLog.new b) hashes) (hash : Nat) :
    h.register_.length = 2 ^ b ∧
    h.registerIndex (HyperLogLog.ComputeBinary hash) = hash % 2 ^ 64 / 2 ^ (64 - b) ∧
    h.registerIndex (HyperLogLog.ComputeBinary hash) < h.register_.length ∧
    ∃ p, h.PositionOfLeftmostOne (HyperLogLog.ComputeBinary hash) = .ok p ∧
      (h.AddElem hash).2 = .ok () ∧
      (h.AddElem hash).1.register_.length = h.register_.length ∧
      (h.AddElem hash).1.register_.getD (h.registerIndex (HyperLogLog.ComputeBinary hash)) 0
        = max (h.register_.getD (h.registerIndex (HyperLogLog.ComputeBinary hash)) 0) (p : Int) ∧
      (∀ j, j ≠ h.registerIndex (HyperLogLog.ComputeBinary hash) →
        (h.AddElem hash).1.register_.getD j 0 = h.register_.getD j 0) ∧
      (∀ j, h.register_.getD j 0 ≤ (h.AddElem hash).1.register_.getD j 0) := by
  have hshape := addAll_keeps_shape hashes (HyperLogLog.new b)
  rw [← hh, (new_shape b).1, (new_shape b).2] at hshape
  obtain ⟨hb, hlen⟩ := hshape
  have hidx := registerIndex_lt h b hb hlt hash
  obtain ⟨p, hp, _⟩ := PositionOfLeftmostOne_position_aux h b hb hlt hash
  have hnonneg : ¬ h.b_ < 0 := by rw [hb]; omega
  have hadd : (h.AddElem hash).2 = .ok () ∧
      (h.AddElem hash).1.register_ =
        h.register_.set (h.registerIndex (HyperLogLog.ComputeBinary hash))
          (max (h.register_.getD (h.registerIndex (HyperLogLog.ComputeBinary hash)) 0)
            (p : Int)) := by
    unfold HyperLogLog.AddElem
    rw [if_neg hnonneg]
    simp only
    rw [hp]
    exact ⟨rfl, rfl⟩
  obtain ⟨hret, hreg⟩ := hadd
  rw [← hlen] at hidx
  refine ⟨hlen, registerIndex_eq h b hb hlt hash, hidx, p, hp, hret, ?_, ?_, ?_, ?_⟩
  · exact (AddElem_keeps_shape h hash).2
  · rw [hreg]
    exact getD_set_eq _ _ _ _ hidx
  · intro j hj
    rw [hreg]
    exact getD_set_ne _ _ _ _ _ hj
  · intro j
    rw [hreg]
    by_cases hj : j = h.registerIndex (HyperLogLog.ComputeBinary hash)
    · rw [hj, getD_set_eq _ _ _ _ hidx]
      exact le_max_left _ _
    · rw [getD_set_ne _ _ _ _ _ hj]

/-- Witness of C20 with two index bits: after three elements the registers are
`[60, 2, 60, 0]`; the hash `2 ^ 62 + 1` has index 1 and position 62, and adding
it gives `[60, 62, 60, 0]`. -/
theorem AddElem_register_update_witness :
    2 < 64 ∧
    (HyperLogLog.addAll (HyperLogLog.new 2)
      [5764607523034234880, 9223372036854775813, 7]).register_ = [60, 2, 60, 0] ∧
    ((HyperLogLog.addAll (HyperLogLog.new 2)
      [5764607523034234880, 9223372036854775813, 7]).AddElem 4611686018427387905).1.register_
        = [60, 62, 60, 0] ∧
    (HyperLogLog.addAll (HyperLogLog.new 2)
      [5764607523034234880, 9223372036854775813, 7]).registerIndex
        (HyperLogLog.ComputeBinary 4611686018427387905) = 1 ∧
    (HyperLogLog.addAll (HyperLogLog.new 2)
      [5764607523034234880, 9223372036854775813, 7]).registerIndex
        (HyperLogLog.ComputeBinary 4611686018427387905)
      < (HyperLogLog.addAll (HyperLogLog.new 2)
          [5764607523034234880, 9223372036854775813, 7]).register_.length :=
  ⟨by decide, by rfl, by rfl, by rfl,
    (AddElem_register_update 2 (by decide) [5764607523034234880, 9223372036854775813, 7]
      _ rfl 4611686018427387905).2.2.1⟩

end bustub
